import Mathlib

/-!
Verification development for the vibe-janitor cleanup engine.

The definitions below are a shallow embedding of the TypeScript sources:
the Cleaner class (unused imports / variables / functions / files analysis,
protection classifier, removal engine), the StyleCleaner class (unused CSS
selector analysis and removal), and the DependencyAuditor class.

Modelling conventions:
* File texts and paths are `List Char`.
* The raw text of a parsed source file is produced by a printer (`render`)
  from the structured file, mirroring the syntax-tree provider printing a
  file; the engine's whole-word occurrence count (the JavaScript regex
  match count of the pattern backslash-b name backslash-b with the global
  flag) is embedded as the number of maximal word-character runs of the
  text that equal the name, which coincides with the regex count for
  identifier names (names consisting of word characters).
* File-system reads and writes become explicit state passing on a
  `Project` value; external collaborators (the ts-morph parser, depcheck,
  css-tree, fast-glob) contribute their outputs as environment fields.
-/

namespace VJ

/-- Word characters of the JavaScript regex class backslash-w:
ASCII letters, digits and underscore. -/
def isWordChar (c : Char) : Bool :=
  c.isAlphanum || c == Char.ofNat 95

/-- Shorthand: the character list of a string literal. -/
def str (s : String) : List Char :=
  s.data

/-- Accumulator-based scan splitting a text into its maximal runs of word
characters (`acc` is the reversed current run). -/
def wordRunsAux : List Char → List Char → List (List Char)
  | [], acc => if acc = [] then [] else [acc.reverse]
  | c :: cs, acc =>
    if isWordChar c then wordRunsAux cs (c :: acc)
    else if acc = [] then wordRunsAux cs []
    else acc.reverse :: wordRunsAux cs []

/-- The maximal word-character runs of a text.  For an identifier `n`
(nonempty, all word characters), the number of runs equal to `n` equals the
JavaScript whole-word match count of `n` in the text. -/
def wordRuns (t : List Char) : List (List Char) :=
  wordRunsAux t []

/-- Number of entries of a list of char-lists equal to `n`. -/
def cnt : List (List Char) → List Char → Nat
  | [], _ => 0
  | t :: ts, n => (if t = n then 1 else 0) + cnt ts n

/-- Join a token list with single spaces (the canonical printed form used
by the embedding of the syntax-tree printer). -/
def joinTok : List (List Char) → List Char
  | [] => []
  | [t] => t
  | t :: t2 :: ts => t ++ ' ' :: joinTok (t2 :: ts)

/-- Sum over tokens of the number of word runs equal to `n`. -/
def occToks : List (List Char) → List Char → Nat
  | [], _ => 0
  | t :: ts, n => cnt (wordRuns t) n + occToks ts n

/-- An identifier: nonempty and all word characters. -/
def isIdent (l : List Char) : Bool :=
  decide (l ≠ []) && l.all isWordChar

/-! ## Data model of parsed source files (the ts-morph view used by Cleaner) -/

/-- A named import specifier, e.g. `x` or `x as y` (ts-morph ImportSpecifier:
`getName()` is the original name, the alias is present for `as` clauses). -/
structure NamedSpec where
  name : List Char
  aliasName : Option (List Char)
deriving DecidableEq

/-- One import declaration of a source file. -/
structure ImportDecl where
  defaultImport : Option (List Char)
  named : List NamedSpec
  namespaceImport : Option (List Char)
  moduleSpecifier : List Char
deriving DecidableEq

/-- A variable declaration; `exported` models the export modifier on its
grandparent variable statement, `inLoop` a for / for-of / for-in ancestor. -/
structure VarDecl where
  name : List Char
  inLoop : Bool
  exported : Bool
  initText : List Char
deriving DecidableEq

/-- A function declaration (empty name = anonymous). -/
structure FuncDecl where
  name : List Char
  exported : Bool
  bodyText : List Char
deriving DecidableEq

/-- A class method with the modifier flags the Cleaner inspects. -/
structure MethodDecl where
  name : List Char
  isPrivate : Bool
  isGetter : Bool
  isSetter : Bool
  bodyText : List Char
deriving DecidableEq

/-- A class declaration (empty name = anonymous class). -/
structure ClassDecl where
  name : List Char
  exported : Bool
  methods : List MethodDecl
deriving DecidableEq

/-- One parsed source file: its path, declarations, and remaining body
text; its raw text is produced by `render`. -/
structure SourceUnit where
  path : List Char
  imports : List ImportDecl
  varDecls : List VarDecl
  funcDecls : List FuncDecl
  classDecls : List ClassDecl
  bodyText : List Char
deriving DecidableEq

/-! ## The printed text of a unit (tokens joined by spaces) -/

def kwImport : List Char := str "import"
def kwFrom : List Char := str "from"
def kwAs : List Char := str "as"
def kwExport : List Char := str "export"
def kwConst : List Char := str "const"
def kwFunction : List Char := str "function"
def kwClass : List Char := str "class"
def kwPrivate : List Char := str "private"
def kwGet : List Char := str "get"
def kwSet : List Char := str "set"
def kwFor : List Char := str "for"
def tkComma : List Char := str ","
def tkStar : List Char := str "*"
def tkSemi : List Char := str ";"
def tkLBrace : List Char := [Char.ofNat 123]
def tkRBrace : List Char := [Char.ofNat 125]
def tkLParen : List Char := str "("
def tkRParen : List Char := str ")"
def tkEq : List Char := str "="

/-- A module specifier wrapped in single quotes, as printed. -/
def quoteTok (m : List Char) : List Char :=
  Char.ofNat 39 :: (m ++ [Char.ofNat 39])

def namedSpecToks (s : NamedSpec) : List (List Char) :=
  match s.aliasName with
  | some a => [s.name, kwAs, a]
  | none => [s.name]

/-- Comma-separate a list of token groups. -/
def commaJoin : List (List (List Char)) → List (List Char)
  | [] => []
  | [x] => x
  | x :: y :: xs => x ++ tkComma :: commaJoin (y :: xs)

def importToks (d : ImportDecl) : List (List Char) :=
  [kwImport]
  ++ (match d.defaultImport with | some dn => [dn, tkComma] | none => [])
  ++ [tkLBrace] ++ commaJoin (d.named.map namedSpecToks) ++ [tkRBrace]
  ++ (match d.namespaceImport with
      | some nsn => [tkComma, tkStar, kwAs, nsn]
      | none => [])
  ++ [kwFrom, quoteTok d.moduleSpecifier, tkSemi]

def varToks (v : VarDecl) : List (List Char) :=
  (if v.exported then [kwExport] else [])
  ++ (if v.inLoop then [kwFor, tkLParen] else [])
  ++ [kwConst, v.name, tkEq, v.initText, tkSemi]
  ++ (if v.inLoop then [tkRParen] else [])

def funcToks (f : FuncDecl) : List (List Char) :=
  (if f.exported then [kwExport] else [])
  ++ [kwFunction, f.name, tkLParen, tkRParen, tkLBrace, f.bodyText, tkRBrace]

def methodToks (m : MethodDecl) : List (List Char) :=
  (if m.isPrivate then [kwPrivate] else [])
  ++ (if m.isGetter then [kwGet] else [])
  ++ (if m.isSetter then [kwSet] else [])
  ++ [m.name, tkLParen, tkRParen, tkLBrace, m.bodyText, tkRBrace]

def classToks (c : ClassDecl) : List (List Char) :=
  (if c.exported then [kwExport] else [])
  ++ [kwClass, c.name, tkLBrace] ++ (c.methods.flatMap methodToks) ++ [tkRBrace]

def unitToks (u : SourceUnit) : List (List Char) :=
  (u.imports.flatMap importToks) ++ (u.varDecls.flatMap varToks)
  ++ (u.funcDecls.flatMap funcToks) ++ (u.classDecls.flatMap classToks)
  ++ [u.bodyText]

/-- The raw text of a unit (what `sourceFile.getText()` returns). -/
def render (u : SourceUnit) : List Char :=
  joinTok (unitToks u)

/-- Whole-word occurrence count of `n` in the unit's raw text: the
embedding of `(fileText.match(new RegExp(escaped name with word
boundaries, global)) ?? []).length`. -/
def occUnit (u : SourceUnit) (n : List Char) : Nat :=
  cnt (wordRuns (render u)) n

/-! ## Analysis: findUnusedImports / findUnusedVariables / findUnusedFunctions
(part_013 lines 105-223, 235-309, 326-437) -/

/-- Per-unit unused import names.  Per import declaration: named imports
(aliased ones skipped), then the default import, then the namespace one,
each pushed when its whole-word occurrence count is at most 1. -/
def unusedImportsOf (u : SourceUnit) : List (List Char) :=
  u.imports.flatMap (fun d =>
    ((d.named.filter (fun s =>
        decide (s.aliasName = none) && decide (occUnit u s.name ≤ 1))).map (·.name))
    ++ (match d.defaultImport with
        | some dn => if occUnit u dn ≤ 1 then [dn] else []
        | none => [])
    ++ (match d.namespaceImport with
        | some nsn => if occUnit u nsn ≤ 1 then [nsn] else []
        | none => []))

/-- A per-file entry of an analysis result. -/
structure FileNames where
  file : List Char
  names : List (List Char)
deriving DecidableEq

def findUnusedImportsModel (files : List SourceUnit) : List FileNames :=
  files.filterMap (fun u =>
    let l := unusedImportsOf u
    if l = [] then none else some ⟨u.path, l⟩)

/-- The destructuring check `varName.includes(...)` on brace or bracket. -/
def hasBraceOrBracket (l : List Char) : Bool :=
  l.any (fun c => c == Char.ofNat 123 || c == Char.ofNat 91)

/-- Per-unit unused variable names: destructured and loop variables are
skipped; a variable is pushed when its occurrence count is at most 1 and
its variable statement carries no export modifier. -/
def unusedVariablesOf (u : SourceUnit) : List (List Char) :=
  (u.varDecls.filter (fun v =>
    !(decide (v.name = []) || hasBraceOrBracket v.name) && !v.inLoop
    && decide (occUnit u v.name ≤ 1) && !v.exported)).map (·.name)

def findUnusedVariablesModel (files : List SourceUnit) : List FileNames :=
  files.filterMap (fun u =>
    let l := unusedVariablesOf u
    if l = [] then none else some ⟨u.path, l⟩)

def ctorName : List Char := str "constructor"

/-- Per-unit unused function names: anonymous functions skipped, exported
functions skipped; methods of exported classes skipped entirely, private /
get / set / constructor methods skipped, surviving methods pushed as
`ClassName.methodName` when the class is named. -/
def unusedFunctionsOf (u : SourceUnit) : List (List Char) :=
  ((u.funcDecls.filter (fun f =>
      decide (f.name ≠ []) && decide (occUnit u f.name ≤ 1) && !f.exported)).map (·.name))
  ++ (u.classDecls.flatMap (fun c =>
      if c.exported then []
      else
        (c.methods.filter (fun m =>
          !m.isPrivate && !m.isGetter && !m.isSetter && decide (m.name ≠ ctorName)
          && decide (occUnit u m.name ≤ 1) && decide (c.name ≠ []))).map
          (fun m => c.name ++ '.' :: m.name)))

def findUnusedFunctionsModel (files : List SourceUnit) : List FileNames :=
  files.filterMap (fun u =>
    let l := unusedFunctionsOf u
    if l = [] then none else some ⟨u.path, l⟩)

/-! ## Removal: removeUnusedImports / removeUnusedVariables /
removeUnusedFunctions (part_013 lines 913-1023) -/

/-- The per-declaration part of removeUnusedImports: remove each named
specifier whose name is in the list, clear the default import when its
name is in the list.  The declaration itself is never removed and the
namespace import is not handled. -/
def removeUnusedImportsDecl (l : List (List Char)) (d : ImportDecl) :
    ImportDecl × Bool :=
  let named2 := d.named.filter (fun s => !(decide (s.name ∈ l)))
  let removedNamed := d.named.any (fun s => decide (s.name ∈ l))
  let defRemoved :=
    match d.defaultImport with
    | some dn => decide (dn ∈ l)
    | none => false
  let def2 :=
    match d.defaultImport with
    | some dn => if dn ∈ l then none else some dn
    | none => none
  ({ d with named := named2, defaultImport := def2 }, removedNamed || defRemoved)

def removeUnusedImportsModel (u : SourceUnit) (l : List (List Char)) :
    SourceUnit × Bool :=
  let pairs := u.imports.map (removeUnusedImportsDecl l)
  ({ u with imports := pairs.map Prod.fst }, pairs.any Prod.snd)

def removeUnusedVariablesModel (u : SourceUnit) (l : List (List Char)) :
    SourceUnit × Bool :=
  let removable : VarDecl → Bool := fun v =>
    !(decide (v.name = []) || hasBraceOrBracket v.name) && !v.inLoop
    && decide (v.name ∈ l)
  ({ u with varDecls := u.varDecls.filter (fun v => !(removable v)) },
   u.varDecls.any removable)

/-- removeUnusedFunctions: named functions whose name is in the list are
removed; in non-exported classes, non-private non-accessor non-constructor
methods whose BARE method name is in the list are removed (the analysis
lists methods as `ClassName.methodName`, the removal checks the bare
name — transcribed as in the source). -/
def removeUnusedFunctionsModel (u : SourceUnit) (l : List (List Char)) :
    SourceUnit × Bool :=
  let remF : FuncDecl → Bool := fun f =>
    decide (f.name ≠ []) && decide (f.name ∈ l)
  let remM : MethodDecl → Bool := fun m =>
    !m.isPrivate && !m.isGetter && !m.isSetter && decide (m.name ≠ ctorName)
    && decide (m.name ∈ l)
  ({ u with
      funcDecls := u.funcDecls.filter (fun f => !(remF f)),
      classDecls := u.classDecls.map (fun c =>
        if c.exported then c
        else { c with methods := c.methods.filter (fun m => !(remM m)) }) },
   u.funcDecls.any remF
     || u.classDecls.any (fun c => !c.exported && c.methods.any remM))

/-! ## Path helpers (POSIX forms of the Node path functions used) -/

def lowerL (l : List Char) : List Char :=
  l.map Char.toLower

def splitOnC (sep : Char) : List Char → List (List Char)
  | [] => [[]]
  | c :: cs =>
    match splitOnC sep cs with
    | [] => [[]]
    | p :: ps => if c = sep then [] :: p :: ps else (c :: p) :: ps

def joinWithC (sep : Char) : List (List Char) → List Char
  | [] => []
  | [x] => x
  | x :: y :: xs => x ++ sep :: joinWithC sep (y :: xs)

/-- `startsL pat t`: `t` starts with `pat` (String.startsWith). -/
def startsL : List Char → List Char → Bool
  | [], _ => true
  | _ :: _, [] => false
  | p :: ps, c :: cs => p == c && startsL ps cs

/-- `endsL pat t`: `t` ends with `pat` (String.endsWith). -/
def endsL (pat t : List Char) : Bool :=
  startsL pat.reverse t.reverse

/-- `hasInfixL pat t`: `t` contains `pat` (String.includes). -/
def hasInfixL (pat : List Char) : List Char → Bool
  | [] => startsL pat []
  | c :: cs => startsL pat (c :: cs) || hasInfixL pat cs

/-- Node path.basename for slash-separated paths. -/
def basenameL (p : List Char) : List Char :=
  (splitOnC '/' p).getLastD []

/-- Node path.extname: the extension of the basename, empty when the only
dot is leading or there is no dot. -/
def extnameL (p : List Char) : List Char :=
  let b := basenameL p
  let rs := b.reverse
  let pre := rs.takeWhile (fun c => !(c == '.'))
  match rs.dropWhile (fun c => !(c == '.')) with
  | [] => []
  | _ :: before => if before = [] then [] else '.' :: pre.reverse

/-- Node path.dirname for slash-separated paths. -/
def dirnameL (p : List Char) : List Char :=
  let segs := splitOnC '/' p
  if segs.length ≤ 1 then str "."
  else
    let j := joinWithC '/' segs.dropLast
    if j = [] then str "/" else j

def dropCommonSegs : List (List Char) → List (List Char) →
    List (List Char) × List (List Char)
  | a :: as, b :: bs => if a = b then dropCommonSegs as bs else (a :: as, b :: bs)
  | as, bs => (as, bs)

/-- Node path.relative for normalized absolute paths. -/
def relativeL (base target : List Char) : List Char :=
  let pr := dropCommonSegs (splitOnC '/' base) (splitOnC '/' target)
  joinWithC '/' (List.replicate pr.1.length (str "..") ++ pr.2)

def normStep (acc : List (List Char)) (seg : List Char) : List (List Char) :=
  if seg = str "." || seg = [] then acc
  else if seg = str ".." then acc.dropLast
  else acc ++ [seg]

/-- Node path.resolve of a relative specifier against an absolute base. -/
def resolvePath (base rel : List Char) : List Char :=
  let full := if startsL (str "/") rel then rel else base ++ '/' :: rel
  '/' :: joinWithC '/' ((splitOnC '/' full).foldl normStep [])

/-- The replace of the trailing-extension regex (a dot followed by
characters that are neither dot nor slash, at the end) by nothing. -/
def stripLastExt (p : List Char) : List Char :=
  let rs := p.reverse
  let pre := rs.takeWhile (fun c => !(c == '.') && !(c == '/'))
  match rs.dropWhile (fun c => !(c == '.') && !(c == '/')) with
  | [] => p
  | c :: rest => if c = '.' && decide (pre ≠ []) then rest.reverse else p

/-! ## Resource protection classifier (part_013 lines 569-684) -/

def specialDirs : List (List Char) :=
  [str "node_modules", str "dist", str "build", str ".git", str "docs",
   str "examples", str "scripts", str "public", str "static", str ".next",
   str ".nuxt", str ".output", str "out", str ".vercel"]

def frameworkPatterns : List (List Char) :=
  [str "/pages/", str "/src/pages/", str "/app/", str "/src/app/"]

/-- Transcription of Cleaner.isFileProtected: the OR of the test-marker,
declaration-file, configuration, documentation, special-directory,
framework-convention, root-level and relative-path rules. -/
def isFileProtected (targetDir filePath : List Char) : Bool :=
  let fileName := lowerL (basenameL filePath)
  let fileExt := lowerL (extnameL filePath)
  let dirName := dirnameL filePath
  if hasInfixL (str "test.") fileName || hasInfixL (str "spec.") fileName
      || hasInfixL (str "jest.") fileName || hasInfixL (str "test-") fileName
      || hasInfixL (str "/test") dirName || hasInfixL (str "/tests") dirName
      || hasInfixL (str "/__tests__") dirName || hasInfixL (str "/__mocks__") dirName
      || hasInfixL (str "/fixtures") dirName || hasInfixL (str "/mocks") dirName then
    true
  else if endsL (str ".d.ts") fileName || fileExt = str ".d.ts" then true
  else if fileName = str "package.json" || fileName = str "tsconfig.json"
      || fileName = str "jest.config.js" || fileName = str ".eslintrc.js"
      || fileName = str ".prettierrc" || startsL (str ".") fileName
      || endsL (str "rc") fileName || endsL (str "rc.js") fileName
      || endsL (str "rc.json") fileName then true
  else if fileExt = str ".md" || fileExt = str ".mdx" || fileName = str "license"
      || fileName = str "changelog" || fileName = str "contributing" then true
  else
    let normalizedPath := (lowerL filePath).map
      (fun c => if c = Char.ofNat 92 then '/' else c)
    let dirParts := splitOnC '/' normalizedPath
    if specialDirs.any (fun d => dirParts.any (fun seg => decide (seg = d))) then true
    else if frameworkPatterns.any (fun pat => hasInfixL pat normalizedPath) then true
    else if dirnameL filePath = targetDir then true
    else
      let relativePath := lowerL (relativeL targetDir filePath)
      startsL (str "node_modules") relativePath || startsL (str "dist") relativePath
      || startsL (str "build") relativePath || startsL (str ".git") relativePath
      || startsL (str "public") relativePath || startsL (str "static") relativePath
      || hasInfixL (str "/docs") relativePath || hasInfixL (str "/examples") relativePath
      || hasInfixL (str "/scripts") relativePath || hasInfixL (str "/public") relativePath
      || hasInfixL (str "/static") relativePath

/-! ## Project state and file reachability (part_013 lines 442-564) -/

/-- The manifest fields findUnusedFiles reads: the main field and the bin
entries (a string bin becomes a one-element list, a name-to-path map its
list of values). -/
structure PackageManifest where
  mainField : Option (List Char)
  binEntries : List (List Char)
deriving DecidableEq

/-- The project state: target directory, the parsed source files, the set
of existing paths on disk, the manifest (present exactly when
package.json exists), and tsconfig / README existence flags. -/
structure Project where
  targetDir : List Char
  files : List SourceUnit
  disk : List (List Char)
  manifest : Option PackageManifest
  hasTsconfig : Bool
  hasReadme : Bool
  fileSizes : List (List Char × Nat)
deriving DecidableEq

def existsOn (proj : Project) (p : List Char) : Bool :=
  proj.disk.any (fun q => decide (q = p))

def probeExts : List (List Char) :=
  [str ".ts", str ".tsx", str ".js", str ".jsx"]

/-- The extension / index probing loop of findUnusedFiles: for each
extension in order, first the path with the extension, then the index
file under the path. -/
def probeLoop (proj : Project) (base : List Char) : List (List Char) → List Char
  | [] => base
  | e :: es =>
    if existsOn proj (base ++ e) then base ++ e
    else if existsOn proj (base ++ '/' :: (str "index" ++ e)) then
      base ++ '/' :: (str "index" ++ e)
    else probeLoop proj base es

/-- Resolution of one import declaration to a referenced project file:
only relative specifiers are resolved; the result must exist. -/
def resolveImportPath (proj : Project) (u : SourceUnit) (d : ImportDecl) :
    Option (List Char) :=
  if startsL (str ".") d.moduleSpecifier then
    let r0 := resolvePath (dirnameL u.path) d.moduleSpecifier
    let r := if existsOn proj r0 then r0 else probeLoop proj r0 probeExts
    if existsOn proj r then some r else none
  else none

/-- The entry-point allow-set: the resolved main field (with and without
its extension) and the resolved bin entries. -/
def entryPointsOf (proj : Project) : List (List Char) :=
  match proj.manifest with
  | some m =>
    (match m.mainField with
     | some mn =>
       let mp := resolvePath proj.targetDir mn
       [mp, stripLastExt mp]
     | none => [])
    ++ m.binEntries.map (fun b => resolvePath proj.targetDir b)
  | none => []

/-- The important-files set: package.json itself (when present), and
tsconfig.json / README.md when they exist. -/
def importantFilesOf (proj : Project) : List (List Char) :=
  (match proj.manifest with
   | some _ => [proj.targetDir ++ '/' :: str "package.json"]
   | none => [])
  ++ (if proj.hasTsconfig then [proj.targetDir ++ '/' :: str "tsconfig.json"] else [])
  ++ (if proj.hasReadme then [proj.targetDir ++ '/' :: str "README.md"] else [])

/-- findUnusedFiles: files with no resolved inbound import, not an entry
point, not important, and not protected. -/
def findUnusedFilesModel (proj : Project) : List (List Char) :=
  let referencedFiles :=
    proj.files.flatMap (fun u => u.imports.filterMap (resolveImportPath proj u))
  let entryPoints := entryPointsOf proj
  let importantFiles := importantFilesOf proj
  (proj.files.map (·.path)).filter (fun f =>
    !(referencedFiles.any (fun r => decide (r = f)))
    && !(entryPoints.any (fun r => decide (r = f)))
    && !(importantFiles.any (fun r => decide (r = f)))
    && !(isFileProtected proj.targetDir f))

/-! ## The clean pipeline (part_013 lines 691-908) -/

structure CleanerOptions where
  dryRun : Bool
  removeUnused : Bool
  deepScrub : Bool
  deleteUnusedFiles : Bool
deriving DecidableEq

structure CleaningResult where
  unusedFiles : List (List Char)
  unusedImports : List FileNames
  unusedVariables : List FileNames
  unusedFunctions : List FileNames
  modifiedFiles : List (List Char)
  deletedFiles : List (List Char)
  unusedFilesSize : Nat
deriving DecidableEq

def calcUnusedFilesSize (proj : Project) (l : List (List Char)) : Nat :=
  l.foldl (fun acc p =>
    match proj.fileSizes.find? (fun e => decide (e.1 = p)) with
    | some e => acc + e.2
    | none => acc) 0

/-- deleteUnusedFiles: nothing on dry runs; otherwise the protection
predicate is re-evaluated as the final guard before each deletion, and
the successfully deleted paths are returned. -/
def deleteUnusedFilesModel (opts : CleanerOptions) (targetDir : List Char)
    (unusedFiles : List (List Char)) : List (List Char) :=
  if unusedFiles = [] || opts.dryRun then []
  else unusedFiles.filter (fun p => !(isFileProtected targetDir p))

def lookupNames (entries : List FileNames) (p : List Char) :
    Option (List (List Char)) :=
  (entries.find? (fun e => decide (e.file = p))).map (·.names)

/-- The per-file mutation step of clean: import removal, then (under deep
scrub) variable and function removal, with the per-file modified flag. -/
def cleanStepUnit (opts : CleanerOptions) (ui uv uf : List FileNames)
    (u : SourceUnit) : SourceUnit × Bool :=
  let p1 :=
    match lookupNames ui u.path with
    | some l => removeUnusedImportsModel u l
    | none => (u, false)
  let p2 :=
    if opts.deepScrub then
      match lookupNames uv p1.1.path with
      | some l => removeUnusedVariablesModel p1.1 l
      | none => (p1.1, false)
    else (p1.1, false)
  let p3 :=
    if opts.deepScrub then
      match lookupNames uf p2.1.path with
      | some l => removeUnusedFunctionsModel p2.1 l
      | none => (p2.1, false)
    else (p2.1, false)
  (p3.1, p1.2 || p2.2 || p3.2)

/-- Cleaner.clean: analysis (imports always, variables / functions /
files under deep scrub), then, when not a dry run and removal is enabled,
the per-file rewrites (modified files saved and recorded) and the
deletion stage (under deep scrub when file deletion or removal is
enabled). -/
def cleanModel (opts : CleanerOptions) (proj : Project) :
    Project × CleaningResult :=
  let ui := findUnusedImportsModel proj.files
  let uv := if opts.deepScrub then findUnusedVariablesModel proj.files else []
  let uf := if opts.deepScrub then findUnusedFunctionsModel proj.files else []
  let ufl := if opts.deepScrub then findUnusedFilesModel proj else []
  let usize := if opts.deepScrub then calcUnusedFilesSize proj ufl else 0
  if !opts.dryRun && opts.removeUnused then
    let stepped := proj.files.map (cleanStepUnit opts ui uv uf)
    let files1 := stepped.map Prod.fst
    let modified := stepped.filterMap (fun p => if p.2 then some p.1.path else none)
    let deleted :=
      if opts.deepScrub && decide (ufl ≠ [])
          && (opts.deleteUnusedFiles || opts.removeUnused) then
        deleteUnusedFilesModel opts proj.targetDir ufl
      else []
    let files2 := files1.filter (fun u => !(deleted.any (fun p => decide (p = u.path))))
    let disk2 := proj.disk.filter (fun p => !(deleted.any (fun q => decide (q = p))))
    ({ proj with files := files2, disk := disk2 },
     ⟨ufl, ui, uv, uf, modified, deleted, usize⟩)
  else
    (proj, ⟨ufl, ui, uv, uf, [], [], usize⟩)

/-! ## StyleCleaner (dependencyAuditor.ts bundle, second document) -/

/-- One CSS selector of a selector list, as css-tree sees it: the class
selector names it contains (dots stripped), in order. -/
structure CssSel where
  classes : List (List Char)
deriving DecidableEq

/-- One CSS rule: its selector list and its declaration-block text. -/
structure CssRule where
  sels : List CssSel
  body : List Char
deriving DecidableEq

/-- A stylesheet on disk: path, raw text, and the parsed rule list (the
css-tree parse of the text). -/
structure StyleFile where
  path : List Char
  text : List Char
  rules : List CssRule
deriving DecidableEq

/-- A scanned source document: the class-name tokens its class-usage
patterns yield (the regex extraction is performed by the collaborator),
and whether it contains a dynamic className expression. -/
structure SourceDoc where
  path : List Char
  classTokens : List (List Char)
  hasDynamicClass : Bool
deriving DecidableEq

structure StyleCleanerOptions where
  dryRun : Bool
  removeUnused : Bool
  scanComponents : Bool
deriving DecidableEq

structure StyleEnv where
  styleFiles : List StyleFile
  sources : List SourceDoc
deriving DecidableEq

/-- The flattened class selectors of a stylesheet, each printed with its
leading dot, in document order (extractStyleDefinitions). -/
def selectorsOfFile (f : StyleFile) : List (List Char) :=
  f.rules.flatMap (fun r => r.sels.flatMap (fun s => s.classes.map (fun c => '.' :: c)))

/-- The extracted style definitions: path and flattened selector list per
stylesheet. -/
def styleDefsOf (env : StyleEnv) : List (List Char × List (List Char)) :=
  env.styleFiles.map (fun f => (f.path, selectorsOfFile f))

/-- JS Map.set: overwrite an existing binding, else append. -/
def upsert (m : List (List Char × (Nat × Nat))) (k : List Char) (v : Nat × Nat) :
    List (List Char × (Nat × Nat)) :=
  if m.any (fun e => decide (e.1 = k)) then
    m.map (fun e => if e.1 = k then (k, v) else e)
  else m ++ [(k, v)]

/-- The class-name map of findClassUsages: class name (dot stripped) to
the identity (file index, selector index) of the LAST selector bearing
it. -/
def classMapOf (env : StyleEnv) : List (List Char × (Nat × Nat)) :=
  ((styleDefsOf env).enum).foldl (fun m fd =>
    (fd.2.2.enum).foldl (fun m2 se =>
      if startsL (str ".") se.2 then upsert m2 (se.2.drop 1) (fd.1, se.1) else m2) m) []

def lookupClassMap (m : List (List Char × (Nat × Nat))) (k : List Char) :
    Option (Nat × Nat) :=
  (m.find? (fun e => decide (e.1 = k))).map (·.2)

/-- The selector identities marked used by findClassUsages: for each
class token of each source the mapped selector, and, for sources with a
dynamic className (when component scanning is on), every selector of the
definitions in the same directory. -/
def usedIdsOf (opts : StyleCleanerOptions) (env : StyleEnv) : List (Nat × Nat) :=
  env.sources.flatMap (fun src =>
    (src.classTokens.filterMap (fun tok => lookupClassMap (classMapOf env) tok))
    ++ (if opts.scanComponents && src.hasDynamicClass then
          ((styleDefsOf env).enum).flatMap (fun fd =>
            if dirnameL fd.2.1 = dirnameL src.path then
              (fd.2.2.enum).map (fun se => (fd.1, se.1))
            else [])
        else []))

/-- findUnusedSelectors: per stylesheet the selectors not marked used. -/
def unusedSelectorsOf (opts : StyleCleanerOptions) (env : StyleEnv) :
    List FileNames :=
  ((styleDefsOf env).enum).filterMap (fun fd =>
    let unused := (fd.2.2.enum).filterMap (fun se =>
      if (usedIdsOf opts env).any (fun i => decide (i = (fd.1, se.1))) then none
      else some se.2)
    if unused = [] then none else some ⟨fd.2.1, unused⟩)

/-- A selector contains one of the unused class selectors. -/
def selHasUnusedClass (unused : List (List Char)) (s : CssSel) : Bool :=
  s.classes.any (fun c => unused.any (fun un => decide (un = '.' :: c)))

/-- A rule is removed when the number of its selectors containing an
unused class equals its number of selectors (toRemove.size === i). -/
def ruleRemoved (unused : List (List Char)) (r : CssRule) : Bool :=
  decide ((r.sels.filter (selHasUnusedClass unused)).length = r.sels.length)

def cssRenderSel (s : CssSel) : List Char :=
  s.classes.flatMap (fun c => '.' :: c)

def cssRenderRule (r : CssRule) : List Char :=
  joinWithC ',' (r.sels.map cssRenderSel)
    ++ Char.ofNat 123 :: (r.body ++ [Char.ofNat 125])

/-- The css-tree generate of a rule list. -/
def cssRender (rules : List CssRule) : List Char :=
  rules.flatMap cssRenderRule

/-- removeUnusedSelectors: nothing on dry runs or when removal is off;
otherwise, per unused-selector entry, drop the rules whose selectors all
contain unused classes, regenerate, accumulate the byte difference, and
persist (recording the path) only when the regenerated text differs. -/
def removeUnusedSelectorsModel (opts : StyleCleanerOptions)
    (files : List StyleFile) (entries : List FileNames) :
    List StyleFile × List (List Char) × Int :=
  if opts.dryRun || !opts.removeUnused then (files, [], 0)
  else
    entries.foldl (fun st e =>
      match st.1.find? (fun f => decide (f.path = e.file)) with
      | none => st
      | some f =>
        let rules2 := f.rules.filter (fun r => !(ruleRemoved e.names r))
        let cleaned := cssRender rules2
        let bytes := (f.text.length : Int) - (cleaned.length : Int)
        if cleaned = f.text then (st.1, st.2.1, st.2.2 + bytes)
        else
          (st.1.map (fun g =>
            if g.path = f.path then { g with text := cleaned, rules := rules2 } else g),
           st.2.1 ++ [f.path], st.2.2 + bytes))
      (files, [], 0)

structure StyleCleaningResult where
  analyzedFiles : Nat
  styleDefinitions : List (List Char × List (List Char))
  unusedSelectors : List FileNames
  modifiedFiles : List (List Char)
  totalSelectorsFound : Nat
  totalUnusedSelectors : Nat
  bytesRemoved : Int
deriving DecidableEq

/-- StyleCleaner.clean: find files, extract definitions, mark usage, list
unused selectors, and (when not a dry run, removal enabled, and something
is unused) rewrite the stylesheets. -/
def styleCleanModel (opts : StyleCleanerOptions) (env : StyleEnv) :
    StyleEnv × StyleCleaningResult :=
  if env.styleFiles = [] then (env, ⟨0, [], [], [], 0, 0, 0⟩)
  else
    let defs := styleDefsOf env
    let total := (defs.map (fun d => d.2.length)).sum
    let unused := unusedSelectorsOf opts env
    let totalUnused := (unused.map (fun e => e.names.length)).sum
    if !opts.dryRun && opts.removeUnused && totalUnused > 0 then
      let r := removeUnusedSelectorsModel opts env.styleFiles unused
      ({ env with styleFiles := r.1 },
       ⟨env.styleFiles.length, defs, unused, r.2.1, total, totalUnused, r.2.2⟩)
    else
      (env, ⟨env.styleFiles.length, defs, unused, [], total, totalUnused, 0⟩)

/-! ## DependencyAuditor (dependencyAuditor.ts bundle, first document) -/

/-- A dependency-name pattern: the exact strings and the anchored /
unanchored regexes of SPECIAL_DEPENDENCIES. -/
inductive DepPat where
  | exact : List Char → DepPat
  | startsW : List Char → DepPat
  | hasIn : List Char → DepPat
  | endsW : List Char → DepPat
deriving DecidableEq

def depPatTest (p : DepPat) (name : List Char) : Bool :=
  match p with
  | .exact s => decide (name = s)
  | .startsW s => startsL s name
  | .hasIn s => hasInfixL s name
  | .endsW s => endsL s name

def matchesPattern (name : List Char) (pats : List DepPat) : Bool :=
  pats.any (fun p => depPatTest p name)

def gatsbyPlugins : List DepPat :=
  [.startsW (str "gatsby-plugin-"), .startsW (str "gatsby-source-"),
   .startsW (str "gatsby-transformer-")]

def nextPlugins : List DepPat :=
  [.startsW (str "next-"), .exact (str "@next/bundle-analyzer"),
   .exact (str "@next/mdx"), .exact (str "next-seo"), .exact (str "next-themes")]

def astroPlugins : List DepPat :=
  [.startsW (str "@astrojs/"), .startsW (str "astro-")]

def nuxtPlugins : List DepPat :=
  [.startsW (str "@nuxtjs/"), .startsW (str "nuxt-")]

def testingDependencies : List DepPat :=
  [.startsW (str "jest"), .startsW (str "@testing-library"), .startsW (str "@types/jest"),
   .exact (str "identity-obj-proxy"), .exact (str "babel-jest"), .exact (str "ts-jest"),
   .exact (str "vitest"), .exact (str "cypress"), .startsW (str "@cypress/"),
   .exact (str "playwright"), .startsW (str "@playwright/"), .exact (str "mocha"),
   .exact (str "chai"), .exact (str "sinon"), .exact (str "enzyme"), .exact (str "ava"),
   .exact (str "supertest"), .exact (str "mock-service-worker"), .exact (str "@mswjs/data")]

def typeDefinitions : List DepPat :=
  [.startsW (str "@types/")]

def buildTools : List DepPat :=
  [.exact (str "webpack"), .hasIn (str "webpack-"), .hasIn (str "-webpack-"),
   .endsW (str "-loader"), .exact (str "rollup"), .hasIn (str "rollup-plugin-"),
   .exact (str "@rollup/plugin-"), .exact (str "esbuild"), .hasIn (str "esbuild-"),
   .exact (str "vite"), .hasIn (str "vite-plugin-"), .exact (str "@vitejs/plugin-"),
   .exact (str "parcel"), .exact (str "babel"), .exact (str "@babel/"),
   .hasIn (str "babel-"), .exact (str "swc"), .exact (str "@swc/"),
   .exact (str "typescript")]

def stylingTools : List DepPat :=
  [.exact (str "postcss"), .hasIn (str "postcss-"), .exact (str "autoprefixer"),
   .exact (str "tailwindcss"), .exact (str "sass"), .exact (str "node-sass"),
   .exact (str "less"), .exact (str "stylus"), .exact (str "styled-components"),
   .exact (str "@emotion/react"), .exact (str "@emotion/styled"),
   .exact (str "css-loader"), .exact (str "style-loader"), .exact (str "css-modules"),
   .exact (str "cssnano")]

def lintingTools : List DepPat :=
  [.exact (str "eslint"), .hasIn (str "eslint-"), .exact (str "@eslint/"),
   .exact (str "prettier"), .hasIn (str "prettier-"), .exact (str "@prettier/"),
   .exact (str "stylelint"), .hasIn (str "stylelint-"), .exact (str "commitlint"),
   .hasIn (str "commitlint-"), .exact (str "@commitlint/")]

def docTools : List DepPat :=
  [.exact (str "jsdoc"), .exact (str "typedoc"), .exact (str "docusaurus"),
   .exact (str "@docusaurus/"), .exact (str "storybook"), .exact (str "@storybook/"),
   .exact (str "swagger"), .exact (str "openapi")]

def monorepoTools : List DepPat :=
  [.exact (str "lerna"), .exact (str "nx"), .exact (str "@nrwl/"),
   .exact (str "turborepo"), .exact (str "turbo"), .exact (str "workspaces")]

def configTools : List DepPat :=
  [.exact (str "dotenv"), .hasIn (str "dotenv-"), .exact (str "cross-env"),
   .exact (str "env-cmd"), .exact (str "config"), .exact (str "convict"),
   .exact (str "rc"), .exact (str "cosmiconfig")]

def gitTools : List DepPat :=
  [.exact (str "husky"), .exact (str "lint-staged"), .exact (str "commitizen"),
   .exact (str "cz-conventional-changelog"), .exact (str "standard-version"),
   .exact (str "semantic-release"), .exact (str "@semantic-release/")]

def utilityDependencies : List DepPat :=
  [.exact (str "lodash"), .exact (str "ramda"), .exact (str "date-fns"),
   .exact (str "dayjs"), .exact (str "moment"), .exact (str "luxon"),
   .exact (str "zod"), .exact (str "yup"), .exact (str "ajv"), .exact (str "joi"),
   .exact (str "validator"), .exact (str "uuid"), .exact (str "nanoid"),
   .exact (str "axios"), .exact (str "node-fetch"), .exact (str "isomorphic-fetch"),
   .exact (str "graphql"), .exact (str "apollo"), .exact (str "@apollo/"),
   .exact (str "urql"), .exact (str "react-query"), .exact (str "@tanstack/react-query")]

structure DependencyAuditorOptions where
  ignoreDirs : List (List Char)
  ignoreMatches : List (List Char)
  isGatsbyProject : Bool
  isNextProject : Bool
  isNuxtProject : Bool
  isAstroProject : Bool
  isMonorepo : Bool
  detectFrameworks : Bool
deriving DecidableEq

/-- isSpecialDependency: the Gatsby short-circuit, then the ten category
lists, then the framework-plugin loop (skipping Gatsby only when the
project is a Gatsby project). -/
def isSpecialDependency (opts : DependencyAuditorOptions)
    (packageName : List Char) : Bool :=
  if opts.isGatsbyProject && matchesPattern packageName gatsbyPlugins then true
  else if [testingDependencies, typeDefinitions, buildTools, stylingTools,
      lintingTools, docTools, monorepoTools, configTools, gitTools,
      utilityDependencies].any (fun cat => matchesPattern packageName cat) then true
  else
    [(true, gatsbyPlugins), (false, nextPlugins), (false, astroPlugins),
     (false, nuxtPlugins)].any (fun e =>
      !(e.1 && opts.isGatsbyProject) && matchesPattern packageName e.2)

/-- The manifest fields the auditor reads. -/
structure PkgJson where
  dependencies : List (List Char)
  devDependencies : List (List Char)
  workspaces : Bool
deriving DecidableEq

/-- The auditor's environment: the manifest (absent when package.json is
missing), the depcheck collaborator's raw outputs, the contents of
existing config files, and the file-existence facts detectFrameworks
queries (paths relative to the target directory). -/
structure AuditEnv where
  targetDir : List Char
  packageJson : Option PkgJson
  depcheckDependencies : List (List Char)
  depcheckDevDependencies : List (List Char)
  depcheckMissing : List (List Char)
  configFiles : List (List Char × List Char)
  existingFiles : List (List Char)
deriving DecidableEq

def configToolPairs : List (List Char × List Char) :=
  [(str "postcss.config.js", str "postcss"), (str "tailwind.config.js", str "tailwindcss"),
   (str ".eslintrc.js", str "eslint"), (str ".eslintrc.json", str "eslint"),
   (str ".prettierrc", str "prettier"), (str ".prettierrc.js", str "prettier"),
   (str "jest.config.js", str "jest"), (str "cypress.json", str "cypress"),
   (str "cypress.config.js", str "cypress"), (str "playwright.config.js", str "playwright"),
   (str "vitest.config.js", str "vitest"), (str "vitest.config.ts", str "vitest"),
   (str ".storybook/main.js", str "storybook"), (str "webpack.config.js", str "webpack"),
   (str "rollup.config.js", str "rollup"), (str "vite.config.js", str "vite"),
   (str "tsconfig.json", str "typescript")]

/-- detectFrameworks: flag updates from the dependency names and config
files present in the project. -/
def detectFrameworksModel (opts : DependencyAuditorOptions) (env : AuditEnv) :
    DependencyAuditorOptions :=
  if !opts.detectFrameworks then opts
  else
    match env.packageJson with
    | none => opts
    | some pkg =>
      let deps := pkg.dependencies ++ pkg.devDependencies
      let hasDep := fun (n : List Char) => deps.any (fun d => decide (d = n))
      let hasFile := fun (n : List Char) =>
        env.existingFiles.any (fun f => decide (f = n))
      let gatsbyFlag :=
        hasFile (str "gatsby-config.js") || hasFile (str "gatsby-config.ts")
      let o1 := if hasDep (str "gatsby") then
          { opts with isGatsbyProject := gatsbyFlag } else opts
      let nextFlag :=
        hasFile (str "next.config.js") || hasFile (str "next.config.ts")
        || hasFile (str "next.config.mjs")
      let o2 := if hasDep (str "next") then
          { o1 with isNextProject := nextFlag } else o1
      let nuxtFlag :=
        hasFile (str "nuxt.config.js") || hasFile (str "nuxt.config.ts")
      let o3 := if hasDep (str "nuxt") || hasDep (str "nuxt3") then
          { o2 with isNuxtProject := nuxtFlag } else o2
      let astroFlag :=
        hasFile (str "astro.config.js") || hasFile (str "astro.config.ts")
        || hasFile (str "astro.config.mjs")
      let o4 := if hasDep (str "astro") then
          { o3 with isAstroProject := astroFlag } else o3
      let monoFlag :=
        hasDep (str "lerna") || hasDep (str "nx") || hasDep (str "@nrwl/workspace")
        || hasDep (str "turbo") || hasFile (str "lerna.json")
        || hasFile (str "nx.json") || hasFile (str "turbo.json")
        || hasFile (str "pnpm-workspace.yaml") || pkg.workspaces
      let o5 := { o4 with isMonorepo := monoFlag }
      configToolPairs.foldl (fun o pr =>
        if hasFile pr.1 && !(o.ignoreMatches.any (fun t => decide (t = pr.2))) then
          { o with ignoreMatches := o.ignoreMatches ++ [pr.2] }
        else o) o5

/-- The quoted-mention check performed on config-file contents. -/
def depReferencedIn (content dep : List Char) : Bool :=
  let q1 : Char := Char.ofNat 39
  let q2 : Char := Char.ofNat 34
  hasInfixL (q1 :: dep ++ [q1]) content
  || hasInfixL (q2 :: dep ++ [q2]) content
  || hasInfixL (str "from " ++ q1 :: dep ++ [q1]) content
  || hasInfixL (str "from " ++ q2 :: dep ++ [q2]) content
  || hasInfixL (str "require(" ++ q1 :: dep ++ q1 :: str ")") content
  || hasInfixL (str "require(" ++ q2 :: dep ++ q2 :: str ")") content
  || hasInfixL (str "import " ++ q1 :: dep ++ [q1]) content
  || hasInfixL (str "import " ++ q2 :: dep ++ [q2]) content

def configFilesToCheckOf (opts : DependencyAuditorOptions) : List (List Char) :=
  (if opts.isGatsbyProject then
    [str "gatsby-config.js", str "gatsby-config.ts", str "gatsby-node.js",
     str "gatsby-node.ts", str "gatsby-browser.js", str "gatsby-browser.ts",
     str "gatsby-ssr.js", str "gatsby-ssr.ts"] else [])
  ++ (if opts.isNextProject then
    [str "next.config.js", str "next.config.ts", str "next.config.mjs"] else [])
  ++ (if opts.isNuxtProject then [str "nuxt.config.js", str "nuxt.config.ts"] else [])
  ++ (if opts.isAstroProject then
    [str "astro.config.js", str "astro.config.ts", str "astro.config.mjs"] else [])
  ++ [str "webpack.config.js", str "rollup.config.js", str "vite.config.js",
      str "vite.config.ts", str ".eslintrc.js", str ".eslintrc.json",
      str ".prettierrc.js", str "jest.config.js", str "cypress.config.js",
      str "playwright.config.js", str "vitest.config.js", str ".storybook/main.js",
      str "postcss.config.js", str "tailwind.config.js", str "lerna.json",
      str "nx.json", str "turbo.json"]

def configFilterStep (env : AuditEnv) (unused : List (List Char))
    (cf : List Char) : List (List Char) :=
  match env.configFiles.find? (fun e => decide (e.1 = cf)) with
  | some e => unused.filter (fun dep => !(depReferencedIn e.2 dep))
  | none => unused

def nativeReplacements : List (List Char × List (List Char)) :=
  [(str "lodash", [str "Array, Object, and String methods in modern JavaScript"]),
   (str "moment", [str "Intl.DateTimeFormat", str "Date methods",
     str "Temporal API (upcoming)"]),
   (str "request", [str "fetch API", str "node-fetch", str "axios"]),
   (str "underscore", [str "Array, Object, and String methods in modern JavaScript"]),
   (str "jquery", [str "querySelector", str "querySelectorAll", str "fetch API"]),
   (str "bluebird", [str "Native Promises", str "async/await"]),
   (str "cheerio", [str "DOMParser (browser)", str "JSDOM (Node)"]),
   (str "q", [str "Native Promises", str "async/await"]),
   (str "async", [str "Promise.all", str "Promise methods", str "async/await"]),
   (str "mkdirp", [str "fs.mkdir with recursive: true"])]

structure DependencyAuditResult where
  unusedDependencies : List (List Char)
  missingDependencies : List (List Char)
  possibleNativeReplacements : List (List Char × List (List Char))
  totalDevDependencies : Nat
  totalDependencies : Nat
deriving DecidableEq

def emptyAuditResult : DependencyAuditResult :=
  ⟨[], [], [], 0, 0⟩

def eraseFirst : List (List Char) → List Char → List (List Char)
  | [], _ => []
  | a :: as, x => if a = x then as else a :: eraseFirst as x

/-- The body of DependencyAuditor.audit up to its return: the thrown
manifest-missing error is the Except error case. -/
def auditInner (opts : DependencyAuditorOptions) (env : AuditEnv) :
    Except (List Char) DependencyAuditResult :=
  match env.packageJson with
  | none => Except.error (str "No package.json found in target directory")
  | some pkg =>
    let totalDependencies := pkg.dependencies.length
    let totalDevDependencies := pkg.devDependencies.length
    let opts1 := detectFrameworksModel opts env
    let unused0 := env.depcheckDependencies ++ env.depcheckDevDependencies
    let unused1 := unused0.filter (fun d => !(isSpecialDependency opts1 d))
    let unused2 := (configFilesToCheckOf opts1).foldl (configFilterStep env) unused1
    let unused3 :=
      if opts1.isMonorepo && pkg.workspaces then
        unused2.filter (fun dep =>
          !(startsL (str "@") dep && hasInfixL (str "/") dep))
      else unused2
    let missing :=
      if opts1.isGatsbyProject then eraseFirst env.depcheckMissing (str "@reach/router")
      else env.depcheckMissing
    let natives :=
      (unused3.filter (fun d =>
        (nativeReplacements.find? (fun e => decide (e.1 = d))).isSome)).map
        (fun d =>
          (d, ((nativeReplacements.find? (fun e => decide (e.1 = d))).map (·.2)).getD []))
    Except.ok ⟨unused3, missing, natives, totalDevDependencies, totalDependencies⟩

/-- DependencyAuditor.audit: the try / catch wrapper — any error is
logged and the empty result returned, the run never throws. -/
def audit (opts : DependencyAuditorOptions) (env : AuditEnv) :
    DependencyAuditResult :=
  match auditInner opts env with
  | Except.ok r => r
  | Except.error _ => emptyAuditResult

/-- The CLI pipeline fragment around the dependency audit: the cleaner
runs and then the auditor, whose failure cannot affect the cleaner
stage. -/
def runCleanupAndAudit (copts : CleanerOptions) (proj : Project)
    (aopts : DependencyAuditorOptions) (env : AuditEnv) :
    (Project × CleaningResult) × DependencyAuditResult :=
  (cleanModel copts proj, audit aopts env)

/-! ## Counting lemmas for the occurrence heuristic -/

/-! ## Flattened binding-name entries of a unit and occurrence lower bounds -/

def specEntries (s : NamedSpec) : List (List Char) :=
  [s.name] ++ (match s.aliasName with | some a => [a] | none => [])

def importNameEntries (d : ImportDecl) : List (List Char) :=
  (match d.defaultImport with | some dn => [dn] | none => [])
  ++ d.named.flatMap specEntries
  ++ (match d.namespaceImport with | some nsn => [nsn] | none => [])

def unitNameEntries (u : SourceUnit) : List (List Char) :=
  u.imports.flatMap importNameEntries
  ++ u.varDecls.map (·.name)
  ++ u.funcDecls.map (·.name)
  ++ u.classDecls.flatMap (fun c => c.name :: c.methods.map (·.name))

/-! ## Membership characterization of the unused-import analysis -/

/-- A binding of an import declaration checked by findUnusedImports:
a non-aliased named import, the default import, or the namespace one. -/
def isCheckedBinding (d : ImportDecl) (n : List Char) : Prop :=
  (∃ s ∈ d.named, s.aliasName = none ∧ s.name = n)
  ∨ d.defaultImport = some n ∨ d.namespaceImport = some n

/-- Any binding slot of a declaration (aliased names included). -/
def bindingNamed (d : ImportDecl) (n : List Char) : Prop :=
  (∃ s ∈ d.named, s.name = n) ∨ d.defaultImport = some n
  ∨ d.namespaceImport = some n

/-! ## Multiplicity lower bounds on name entries -/

/-! ## Well-formedness: binding names produced by the parser are identifiers -/

def wfImportDecl (d : ImportDecl) : Bool :=
  (match d.defaultImport with | some dn => isIdent dn | none => true)
  && d.named.all (fun s => isIdent s.name
      && (match s.aliasName with | some a => isIdent a | none => true))
  && (match d.namespaceImport with | some nsn => isIdent nsn | none => true)

def unitWFImports (u : SourceUnit) : Bool :=
  u.imports.all wfImportDecl

/-! ## Occurrence preservation under import removal -/

/-! ## Lookup of per-file analysis entries -/

/-! ## The clean pipeline without deep scrub -/

/-! ## Membership characterizations of the variable and function analyses -/

/-! ## Counting helpers per declaration section -/

instance (d : ImportDecl) (n : List Char) : Decidable (isCheckedBinding d n) := by
  unfold isCheckedBinding
  infer_instance

/-! ## Concrete example inputs -/

/-- Listing of a name for a file in an aggregated analysis result. -/
def listedFor (entries : List FileNames) (p n : List Char) : Prop :=
  ∃ e ∈ entries, e.file = p ∧ n ∈ e.names

/-- A file whose only import is aliased (`foo as bar`) and otherwise
does not mention `foo`. -/
def exC4unit : SourceUnit :=
  ⟨str "/p/src/a.ts", [⟨none, [⟨str "foo", some (str "bar")⟩], none, str "m"⟩],
   [], [], [], str ""⟩

/-- Scenario A: a file importing useState, useEffect and useRef where only
useState and useEffect appear elsewhere in the text. -/
def exC4scenario : SourceUnit :=
  ⟨str "/p/src/App.tsx",
   [⟨none, [⟨str "useState", none⟩, ⟨str "useEffect", none⟩, ⟨str "useRef", none⟩],
     none, str "react"⟩],
   [], [], [], str "useState(0); useEffect(go);"⟩

/-- A file with a single named import, unused. -/
def exC5unit : SourceUnit :=
  ⟨str "/p/src/b.ts", [⟨none, [⟨str "foo", none⟩], none, str "m"⟩],
   [], [], [], str ""⟩

def exC5decl : ImportDecl :=
  ⟨none, [⟨str "bar", none⟩, ⟨str "foo", none⟩], none, str "m"⟩

/-- A file with one used and one unused named import in one statement. -/
def exC5mixed : SourceUnit :=
  ⟨str "/p/src/c.ts", [exC5decl], [], [], [], str "bar()"⟩

def exC6funcA : FuncDecl := ⟨str "a", false, str "b();"⟩

def exC6funcB : FuncDecl := ⟨str "b", false, str ""⟩

/-- A root-level file where function a (unused) calls function b, so
deleting a makes b unused on the next pass. -/
def exC6unit : SourceUnit :=
  ⟨str "/p/x.ts", [], [], [exC6funcA, exC6funcB], [], str ""⟩

def exC6proj : Project :=
  ⟨str "/p", [exC6unit], [str "/p/x.ts"], none, false, false, []⟩

def exC6opts : CleanerOptions :=
  ⟨false, true, true, false⟩

def exC6wunit : SourceUnit :=
  ⟨str "/p/src/a.ts", [⟨none, [⟨str "useRef", none⟩], none, str "react"⟩],
   [], [], [], str ""⟩

def exC6wproj : Project :=
  ⟨str "/p", [exC6wunit], [str "/p/src/a.ts"], none, false, false, []⟩

def exC6wopts : CleanerOptions :=
  ⟨false, true, false, false⟩

def exC10decl : ImportDecl :=
  ⟨none, [⟨str "format", some (str "fmt")⟩], none, str "x"⟩

def exC10unit : SourceUnit :=
  ⟨str "/p/src/app.ts", [exC10decl], [], [], [], str ""⟩

/-- The rules of a stylesheet kept by removeUnusedSelectors for a given
unused-selector list. -/
def cleanedRules (names : List (List Char)) (f : StyleFile) : List CssRule :=
  f.rules.filter (fun r => !(ruleRemoved names r))

/-- The stylesheet as rewritten by removeUnusedSelectors: kept rules and
their regenerated text. -/
def cleanedFile (names : List (List Char)) (f : StyleFile) : StyleFile :=
  ⟨f.path, cssRender (cleanedRules names f), cleanedRules names f⟩

def exC1unit : SourceUnit :=
  ⟨str "/p/tests/helper.ts", [], [], [], [], str ""⟩

def exC1proj : Project :=
  ⟨str "/p", [exC1unit], [str "/p/tests/helper.ts"], none, false, false, []⟩

def exC1opts : CleanerOptions :=
  ⟨false, true, true, true⟩

def exC2unit : SourceUnit :=
  ⟨str "/p/src/y.ts", [⟨none, [⟨str "zzz", none⟩], none, str "m"⟩], [], [], [],
   str ""⟩

def exC2proj : Project :=
  ⟨str "/p", [exC2unit], [str "/p/src/y.ts"], none, false, false, []⟩

def exC2opts : CleanerOptions :=
  ⟨true, true, true, true⟩

def exC2rule : CssRule := ⟨[⟨[str "dead"]⟩], str "color:red"⟩

def exC2senv : StyleEnv :=
  ⟨[⟨str "/p/s.css", cssRender [exC2rule], [exC2rule]⟩],
   [⟨str "/p/app.ts", [], false⟩]⟩

def exC2sopts : StyleCleanerOptions :=
  ⟨true, true, true⟩

def exC7unit : SourceUnit :=
  ⟨str "/t/dist/index.js", [], [], [], [], str ""⟩

def exC7proj : Project :=
  ⟨str "/t", [exC7unit], [str "/t/dist/index.js"],
   some ⟨some (str "dist/index.js"), []⟩, false, false, []⟩

def exC7opts : CleanerOptions :=
  ⟨true, false, true, false⟩

def exC8rule : CssRule := ⟨[⟨[str "a", str "b"]⟩], str "color:red"⟩

def exC8file : StyleFile :=
  ⟨str "/p/styles.css", cssRender [exC8rule], [exC8rule]⟩

def exC8src : SourceDoc := ⟨str "/p/index.html", [str "a"], false⟩

def exC8env : StyleEnv := ⟨[exC8file], [exC8src]⟩

def exC8opts : StyleCleanerOptions := ⟨false, true, true⟩

def exC8Brules : List CssRule :=
  [⟨[⟨[str "header"]⟩], str "x"⟩, ⟨[⟨[str "footer"]⟩], str "y"⟩,
   ⟨[⟨[str "unused-class"]⟩], str "z"⟩]

def exC8Bfile : StyleFile :=
  ⟨str "/q/styles.css", cssRender exC8Brules, exC8Brules⟩

def exC8Bsrc : SourceDoc :=
  ⟨str "/q/app.tsx", [str "header", str "footer"], false⟩

def exC8Benv : StyleEnv := ⟨[exC8Bfile], [exC8Bsrc]⟩

def exC9env : AuditEnv :=
  ⟨str "/p", none, [str "lodash"], [], [str "left-pad"], [], []⟩

def exC9opts : DependencyAuditorOptions :=
  ⟨[], [], false, false, false, false, false, true⟩

def exC9proj : Project :=
  ⟨str "/q", [], [], none, false, false, []⟩

def exC9copts : CleanerOptions :=
  ⟨true, false, false, false⟩

def exC3unit : SourceUnit :=
  ⟨str "/p/e.ts", [], [⟨str "apiUrl", false, true, str ""⟩],
   [⟨str "helper", true, str ""⟩],
   [⟨str "Svc", true, [⟨str "run", false, false, false, str ""⟩]⟩], str ""⟩

/-! # Theorems -/

theorem cnt_append (a b : List (List Char)) (n : List Char) :
    cnt (a ++ b) n = cnt a n + cnt b n := by
  induction a with
  | nil => simp [cnt]
  | cons t ts ih => simp [cnt, ih]; omega

theorem occToks_append (a b : List (List Char)) (n : List Char) :
    occToks (a ++ b) n = occToks a n + occToks b n := by
  induction a with
  | nil => simp [occToks]
  | cons t ts ih => simp [occToks, ih]; omega

theorem wordRunsAux_nonword_cons (d : Char) (hd : isWordChar d = false)
    (b acc : List Char) :
    wordRunsAux (d :: b) acc =
      (if acc = [] then [] else [acc.reverse]) ++ wordRunsAux b [] := by
  by_cases hacc : acc = [] <;> simp [wordRunsAux, hd, hacc]

theorem wordRunsAux_append_nonword (d : Char) (hd : isWordChar d = false)
    (a b : List Char) : ∀ acc,
    wordRunsAux (a ++ d :: b) acc = wordRunsAux (a ++ [d]) acc ++ wordRunsAux b [] := by
  induction a with
  | nil =>
    intro acc
    by_cases hacc : acc = [] <;> simp [wordRunsAux, hd, hacc]
  | cons c cs ih =>
    intro acc
    by_cases hc : isWordChar c
    · simp [wordRunsAux, hc, ih]
    · by_cases hacc : acc = [] <;>
        simp [wordRunsAux, hc, hacc, ih, List.cons_append]

theorem wordRunsAux_append_nonword_nil (d : Char) (hd : isWordChar d = false)
    (a : List Char) : ∀ acc,
    wordRunsAux (a ++ [d]) acc = wordRunsAux a acc := by
  induction a with
  | nil =>
    intro acc
    by_cases hacc : acc = [] <;> simp [wordRunsAux, hd, hacc]
  | cons c cs ih =>
    intro acc
    by_cases hc : isWordChar c
    · simp [wordRunsAux, hc, ih]
    · by_cases hacc : acc = [] <;> simp [wordRunsAux, hc, hacc, ih]

/-- Splitting at a non-word character splits the word runs. -/
theorem wordRuns_split (d : Char) (hd : isWordChar d = false) (a b : List Char) :
    wordRuns (a ++ d :: b) = wordRuns a ++ wordRuns b := by
  unfold wordRuns
  rw [wordRunsAux_append_nonword d hd a b, wordRunsAux_append_nonword_nil d hd a]

theorem wordRunsAux_allword (t : List Char) (ht : t.all isWordChar = true) :
    ∀ acc, acc ≠ [] → wordRunsAux t acc = [acc.reverse ++ t] := by
  induction t with
  | nil => intro acc hacc; simp [wordRunsAux, hacc]
  | cons c cs ih =>
    intro acc hacc
    simp only [List.all_cons, Bool.and_eq_true] at ht
    simp [wordRunsAux, ht.1, ih ht.2 (c :: acc) (by simp)]

/-- An identifier is a single word run. -/
theorem wordRuns_ident (t : List Char) (ht : isIdent t = true) :
    wordRuns t = [t] := by
  unfold isIdent at ht
  simp only [Bool.and_eq_true, decide_eq_true_eq] at ht
  match t, ht with
  | c :: cs, ⟨_, hall⟩ =>
    simp only [List.all_cons, Bool.and_eq_true] at hall
    unfold wordRuns wordRunsAux
    simp [hall.1, wordRunsAux_allword cs hall.2 [c] (by simp)]

/-- Word runs of a space-joined token list: the runs of the tokens. -/
theorem wordRuns_joinTok (ts : List (List Char)) (n : List Char) :
    cnt (wordRuns (joinTok ts)) n = occToks ts n := by
  induction ts with
  | nil => simp [joinTok, wordRuns, wordRunsAux, occToks, cnt]
  | cons t rest ih =>
    cases rest with
    | nil => simp [joinTok, occToks, cnt]
    | cons t2 ts2 =>
      have hsp : isWordChar ' ' = false := by decide
      show cnt (wordRuns (t ++ ' ' :: joinTok (t2 :: ts2))) n = _
      rw [wordRuns_split ' ' hsp t (joinTok (t2 :: ts2)), cnt_append, ih]
      rfl

theorem occUnit_eq (u : SourceUnit) (n : List Char) :
    occUnit u n = occToks (unitToks u) n := by
  unfold occUnit render
  exact wordRuns_joinTok (unitToks u) n

theorem wordRuns_nonword (t : List Char) (h : t.all (fun c => !isWordChar c) = true) :
    wordRuns t = [] := by
  induction t with
  | nil => rfl
  | cons c cs ih =>
    simp only [List.all_cons, Bool.and_eq_true, Bool.not_eq_true'] at h
    have := wordRunsAux_nonword_cons c h.1 cs []
    unfold wordRuns at *
    simpa [this] using ih (by simpa using h.2)

theorem cnt_sublist {l1 l2 : List (List Char)} (h : l1.Sublist l2) (n : List Char) :
    cnt l1 n ≤ cnt l2 n := by
  induction h with
  | slnil => exact Nat.le_refl _
  | cons t _ ih => simp only [cnt]; omega
  | cons₂ t _ ih => simp only [cnt]; omega

theorem cnt_le_occToks (ts : List (List Char)) (n : List Char)
    (hn : isIdent n = true) : cnt ts n ≤ occToks ts n := by
  induction ts with
  | nil => simp [cnt, occToks]
  | cons t rest ih =>
    simp only [cnt, occToks]
    have h1 : (if t = n then 1 else 0) ≤ cnt (wordRuns t) n := by
      by_cases ht : t = n
      · subst ht; rw [wordRuns_ident t hn]; simp [cnt]
      · simp [ht]
    omega

theorem occToks_commaJoin (gs : List (List (List Char))) (n : List Char) :
    occToks (commaJoin gs) n = (gs.map (fun g => occToks g n)).sum := by
  induction gs with
  | nil => simp [commaJoin, occToks]
  | cons x rest ih =>
    cases rest with
    | nil => simp [commaJoin, occToks]
    | cons y ys =>
      show occToks (x ++ tkComma :: commaJoin (y :: ys)) n = _
      rw [occToks_append]
      have hcom : wordRuns tkComma = [] := by decide
      simp [occToks, hcom, cnt, ih]

theorem occToks_flatMap (l : List α) (g : α → List (List Char)) (n : List Char) :
    occToks (l.flatMap g) n = (l.map (fun x => occToks (g x) n)).sum := by
  induction l with
  | nil => simp [occToks]
  | cons x rest ih => simp [List.flatMap_cons, occToks_append, ih]

theorem sublist_flatMap {α β} (l : List α) (f g : α → List β)
    (h : ∀ x ∈ l, (f x).Sublist (g x)) : (l.flatMap f).Sublist (l.flatMap g) := by
  induction l with
  | nil => simp
  | cons x rest ih =>
    simp only [List.flatMap_cons]
    exact (h x (by simp)).append (ih (fun y hy => h y (by simp [hy])))

theorem specEntries_sublist (s : NamedSpec) :
    (specEntries s).Sublist (namedSpecToks s) := by
  unfold specEntries namedSpecToks
  cases s.aliasName with
  | none => simp
  | some a =>
    refine List.Sublist.cons₂ _ ?_
    exact (List.nil_sublist [kwAs]).append (List.Sublist.refl [a])

theorem commaJoin_sublist (gs : List (List (List Char))) (fs : List (List (List Char)))
    (h : List.Forall₂ (fun f g => List.Sublist f g) fs gs) :
    (fs.flatten).Sublist (commaJoin gs) := by
  induction h with
  | nil => simp [commaJoin]
  | cons hfg hrest ih =>
    rename_i f g fs2 gs2
    cases hrest with
    | nil => simpa [commaJoin] using hfg
    | cons hfg2 hrest2 =>
      show (f ++ List.flatten (_ :: _)).Sublist (commaJoin (g :: _ :: _))
      exact hfg.append (ih.trans (List.sublist_cons_self tkComma _))

theorem importNameEntries_sublist (d : ImportDecl) :
    (importNameEntries d).Sublist (importToks d) := by
  unfold importNameEntries importToks
  have h1 : ((match d.defaultImport with | some dn => [dn] | none => []) :
      List (List Char)).Sublist
      (match d.defaultImport with | some dn => [dn, tkComma] | none => []) := by
    cases d.defaultImport with
    | none => simp
    | some dn => exact List.Sublist.cons₂ _ (List.nil_sublist _)
  have h2 : (d.named.flatMap specEntries).Sublist
      (commaJoin (d.named.map namedSpecToks)) := by
    have hflat : d.named.flatMap specEntries = (d.named.map specEntries).flatten := by
      simp [List.flatMap_def]
    rw [hflat]
    refine commaJoin_sublist _ _ ?_
    induction d.named with
    | nil => simp
    | cons s rest ih => exact List.Forall₂.cons (specEntries_sublist s) ih
  have h3 : ((match d.namespaceImport with | some nsn => [nsn] | none => []) :
      List (List Char)).Sublist
      ((match d.namespaceImport with
        | some nsn => [tkComma, tkStar, kwAs, nsn] | none => []) : List (List Char)) := by
    cases d.namespaceImport with
    | none => simp
    | some nsn =>
      exact (List.nil_sublist [tkComma, tkStar, kwAs]).append (List.Sublist.refl [nsn])
  have H := (List.nil_sublist [kwImport]).append (h1.append
    ((List.nil_sublist [tkLBrace]).append (h2.append
      ((List.nil_sublist [tkRBrace]).append (h3.append
        (List.nil_sublist [kwFrom, quoteTok d.moduleSpecifier, tkSemi]))))))
  simpa only [List.append_assoc, List.nil_append, List.append_nil] using H

theorem map_eq_flatMap_singleton {α β} (l : List α) (f : α → β) :
    l.map f = l.flatMap (fun x => [f x]) := by
  induction l with
  | nil => rfl
  | cons x rest ih => simp [ih]

theorem varName_sublist_varToks (v : VarDecl) :
    [v.name].Sublist (varToks v) := by
  unfold varToks
  have hmid : [v.name].Sublist [kwConst, v.name, tkEq, v.initText, tkSemi] :=
    List.Sublist.cons kwConst (List.Sublist.cons₂ v.name (List.nil_sublist _))
  have H := (List.nil_sublist (if v.exported then [kwExport] else [])).append
    ((List.nil_sublist (if v.inLoop then [kwFor, tkLParen] else [])).append
      (hmid.append (List.nil_sublist (if v.inLoop then [tkRParen] else []))))
  simpa only [List.append_assoc, List.nil_append, List.append_nil] using H

theorem funcName_sublist_funcToks (f : FuncDecl) :
    [f.name].Sublist (funcToks f) := by
  unfold funcToks
  have hmid : [f.name].Sublist
      [kwFunction, f.name, tkLParen, tkRParen, tkLBrace, f.bodyText, tkRBrace] :=
    List.Sublist.cons kwFunction (List.Sublist.cons₂ f.name (List.nil_sublist _))
  have H := (List.nil_sublist (if f.exported then [kwExport] else [])).append hmid
  simpa only [List.append_assoc, List.nil_append, List.append_nil] using H

theorem methodName_sublist_methodToks (m : MethodDecl) :
    [m.name].Sublist (methodToks m) := by
  unfold methodToks
  have hmid : [m.name].Sublist
      [m.name, tkLParen, tkRParen, tkLBrace, m.bodyText, tkRBrace] :=
    List.Sublist.cons₂ m.name (List.nil_sublist _)
  have H := (List.nil_sublist (if m.isPrivate then [kwPrivate] else [])).append
    ((List.nil_sublist (if m.isGetter then [kwGet] else [])).append
      ((List.nil_sublist (if m.isSetter then [kwSet] else [])).append hmid))
  simpa only [List.append_assoc, List.nil_append, List.append_nil] using H

theorem classNames_sublist_classToks (c : ClassDecl) :
    (c.name :: c.methods.map (·.name)).Sublist (classToks c) := by
  unfold classToks
  have h1 : [c.name].Sublist [kwClass, c.name, tkLBrace] :=
    List.Sublist.cons kwClass (List.Sublist.cons₂ c.name (List.nil_sublist _))
  have h2 : (c.methods.map (·.name)).Sublist (c.methods.flatMap methodToks) := by
    rw [map_eq_flatMap_singleton]
    exact sublist_flatMap _ _ _ (fun m _ => methodName_sublist_methodToks m)
  have H := (List.nil_sublist (if c.exported then [kwExport] else [])).append
    (h1.append (h2.append (List.nil_sublist [tkRBrace])))
  simpa only [List.append_assoc, List.nil_append, List.append_nil,
    List.cons_append, List.singleton_append] using H

theorem unitNameEntries_sublist (u : SourceUnit) :
    (unitNameEntries u).Sublist (unitToks u) := by
  unfold unitNameEntries unitToks
  have h1 : (u.imports.flatMap importNameEntries).Sublist
      (u.imports.flatMap importToks) :=
    sublist_flatMap _ _ _ (fun d _ => importNameEntries_sublist d)
  have h2 : (u.varDecls.map (·.name)).Sublist (u.varDecls.flatMap varToks) := by
    rw [map_eq_flatMap_singleton]
    exact sublist_flatMap _ _ _ (fun v _ => varName_sublist_varToks v)
  have h3 : (u.funcDecls.map (·.name)).Sublist (u.funcDecls.flatMap funcToks) := by
    rw [map_eq_flatMap_singleton]
    exact sublist_flatMap _ _ _ (fun f _ => funcName_sublist_funcToks f)
  have h4 : (u.classDecls.flatMap (fun c => c.name :: c.methods.map (·.name))).Sublist
      (u.classDecls.flatMap classToks) :=
    sublist_flatMap _ _ _ (fun c _ => classNames_sublist_classToks c)
  have H := h1.append (h2.append (h3.append (h4.append
    (List.nil_sublist [u.bodyText]))))
  simpa only [List.append_assoc, List.nil_append, List.append_nil] using H

/-- The occurrence count dominates the number of binding and declaration
name slots equal to an identifier. -/
theorem cnt_entries_le_occ (u : SourceUnit) (n : List Char)
    (hn : isIdent n = true) : cnt (unitNameEntries u) n ≤ occUnit u n := by
  rw [occUnit_eq]
  exact (cnt_sublist (unitNameEntries_sublist u) n).trans
    (cnt_le_occToks (unitToks u) n hn)

theorem mem_unusedImportsOf (u : SourceUnit) (n : List Char) :
    n ∈ unusedImportsOf u ↔
      occUnit u n ≤ 1 ∧ ∃ d ∈ u.imports, isCheckedBinding d n := by
  constructor
  · intro h
    rw [unusedImportsOf, List.mem_flatMap] at h
    obtain ⟨d, hd, hmem⟩ := h
    rw [List.mem_append, List.mem_append] at hmem
    rcases hmem with (hA | hB) | hC
    · rw [List.mem_map] at hA
      obtain ⟨s, hs, hname⟩ := hA
      rw [List.mem_filter] at hs
      have hp := hs.2
      simp only [Bool.and_eq_true, decide_eq_true_eq] at hp
      subst hname
      exact ⟨hp.2, d, hd, Or.inl ⟨s, hs.1, hp.1, rfl⟩⟩
    · cases hdef : d.defaultImport with
      | none => rw [hdef] at hB; simp at hB
      | some dn =>
        rw [hdef] at hB
        by_cases hocc : occUnit u dn ≤ 1
        · simp only [if_pos hocc, List.mem_singleton] at hB
          subst hB
          exact ⟨hocc, d, hd, Or.inr (Or.inl hdef)⟩
        · simp [if_neg hocc] at hB
    · cases hns : d.namespaceImport with
      | none => rw [hns] at hC; simp at hC
      | some nsn =>
        rw [hns] at hC
        by_cases hocc : occUnit u nsn ≤ 1
        · simp only [if_pos hocc, List.mem_singleton] at hC
          subst hC
          exact ⟨hocc, d, hd, Or.inr (Or.inr hns)⟩
        · simp [if_neg hocc] at hC
  · rintro ⟨hocc, d, hd, hb⟩
    rw [unusedImportsOf, List.mem_flatMap]
    refine ⟨d, hd, ?_⟩
    rw [List.mem_append, List.mem_append]
    rcases hb with ⟨s, hs, hal, hname⟩ | hdef | hns
    · refine Or.inl (Or.inl ?_)
      rw [List.mem_map]
      refine ⟨s, ?_, hname⟩
      rw [List.mem_filter]
      subst hname
      simp [hs, hal, hocc]
    · refine Or.inl (Or.inr ?_)
      rw [hdef]
      simp [hocc]
    · refine Or.inr ?_
      rw [hns]
      simp [hocc]

theorem cnt_flatMap_ge_one {α} (l : List α) (g : α → List (List Char))
    (x : α) (hx : x ∈ l) (n : List Char) :
    cnt (g x) n ≤ cnt (l.flatMap g) n := by
  induction l with
  | nil => simp at hx
  | cons a rest ih =>
    rw [List.flatMap_cons, cnt_append]
    rcases List.mem_cons.mp hx with h | h
    · subst h; omega
    · have := ih h; omega

theorem cnt_flatMap_ge_two {α} (l : List α) (g : α → List (List Char))
    (x y : α) (hx : x ∈ l) (hy : y ∈ l) (hxy : x ≠ y) (n : List Char) :
    cnt (g x) n + cnt (g y) n ≤ cnt (l.flatMap g) n := by
  induction l with
  | nil => simp at hx
  | cons a rest ih =>
    rw [List.flatMap_cons, cnt_append]
    rcases List.mem_cons.mp hx with h1 | h1
    · subst h1
      have h2 : y ∈ rest := by
        rcases List.mem_cons.mp hy with h | h
        · exact absurd h.symm hxy
        · exact h
      have := cnt_flatMap_ge_one rest g y h2 n
      omega
    · rcases List.mem_cons.mp hy with h2 | h2
      · subst h2
        have := cnt_flatMap_ge_one rest g x h1 n
        omega
      · have := ih h1 h2; omega

theorem cnt_specEntries_name (s : NamedSpec) (n : List Char) (h : s.name = n) :
    1 ≤ cnt (specEntries s) n := by
  unfold specEntries
  simp [cnt, h]

theorem cnt_importNameEntries_pos (d : ImportDecl) (n : List Char)
    (h : bindingNamed d n) : 1 ≤ cnt (importNameEntries d) n := by
  unfold importNameEntries
  rw [cnt_append, cnt_append]
  rcases h with ⟨s, hs, hname⟩ | hdef | hns
  · have h1 := cnt_flatMap_ge_one d.named specEntries s hs n
    have h2 := cnt_specEntries_name s n hname
    omega
  · rw [hdef]; simp [cnt]
    omega
  · rw [hns]; simp [cnt]

/-- Two distinct binding slots named `n` inside one declaration: an
aliased named import plus any checked binding. -/
theorem cnt_importNameEntries_two (d : ImportDecl) (n : List Char)
    (s : NamedSpec) (hs : s ∈ d.named) (hname : s.name = n)
    (a : List Char) (ha : s.aliasName = some a)
    (hb : isCheckedBinding d n) : 2 ≤ cnt (importNameEntries d) n := by
  unfold importNameEntries
  rw [cnt_append, cnt_append]
  rcases hb with ⟨s0, hs0, hal0, hname0⟩ | hdef | hns
  · have hne : s ≠ s0 := by
      intro hEq
      rw [hEq] at ha
      rw [hal0] at ha
      exact Option.noConfusion ha
    have := cnt_flatMap_ge_two d.named specEntries s s0 hs hs0 hne n
    have e1 := cnt_specEntries_name s n hname
    have e2 := cnt_specEntries_name s0 n hname0
    omega
  · rw [hdef]
    have h1 := cnt_flatMap_ge_one d.named specEntries s hs n
    have h2 := cnt_specEntries_name s n hname
    simp [cnt]
    omega
  · rw [hns]
    have h1 := cnt_flatMap_ge_one d.named specEntries s hs n
    have h2 := cnt_specEntries_name s n hname
    simp [cnt]
    omega

theorem wf_decl (u : SourceUnit) (hwf : unitWFImports u = true)
    (d : ImportDecl) (hd : d ∈ u.imports) : wfImportDecl d = true := by
  unfold unitWFImports at hwf
  exact List.all_eq_true.mp hwf d hd

theorem wf_spec_name (d : ImportDecl) (hwd : wfImportDecl d = true)
    (s : NamedSpec) (hs : s ∈ d.named) : isIdent s.name = true := by
  unfold wfImportDecl at hwd
  simp only [Bool.and_eq_true] at hwd
  have := List.all_eq_true.mp hwd.1.2 s hs
  simp only [Bool.and_eq_true] at this
  exact this.1

theorem wf_default_name (d : ImportDecl) (hwd : wfImportDecl d = true)
    (dn : List Char) (hdef : d.defaultImport = some dn) : isIdent dn = true := by
  unfold wfImportDecl at hwd
  simp only [Bool.and_eq_true] at hwd
  have := hwd.1.1
  rw [hdef] at this
  exact this

theorem wf_ns_name (d : ImportDecl) (hwd : wfImportDecl d = true)
    (nsn : List Char) (hns : d.namespaceImport = some nsn) : isIdent nsn = true := by
  unfold wfImportDecl at hwd
  simp only [Bool.and_eq_true] at hwd
  have := hwd.2
  rw [hns] at this
  exact this

theorem checked_bindingNamed {d : ImportDecl} {n : List Char}
    (h : isCheckedBinding d n) : bindingNamed d n := by
  rcases h with ⟨s, hs, _, hname⟩ | h | h
  · exact Or.inl ⟨s, hs, hname⟩
  · exact Or.inr (Or.inl h)
  · exact Or.inr (Or.inr h)

/-- An aliased named import is never reported: the report would force its
occurrence count to be at most 1, yet the alias site and the reporting
binding site are two distinct whole-word occurrences of the name. -/
theorem aliased_not_unused (u : SourceUnit) (hwf : unitWFImports u = true)
    (d : ImportDecl) (hd : d ∈ u.imports) (s : NamedSpec) (hs : s ∈ d.named)
    (a : List Char) (ha : s.aliasName = some a) :
    s.name ∉ unusedImportsOf u := by
  intro hmem
  rw [mem_unusedImportsOf] at hmem
  obtain ⟨hocc, d0, hd0, hb⟩ := hmem
  have hid : isIdent s.name = true := wf_spec_name d (wf_decl u hwf d hd) s hs
  have h2 : 2 ≤ cnt (unitNameEntries u) s.name := by
    unfold unitNameEntries
    rw [cnt_append, cnt_append, cnt_append]
    by_cases hdd : d = d0
    · subst hdd
      have := cnt_flatMap_ge_one u.imports importNameEntries d hd s.name
      have := cnt_importNameEntries_two d s.name s hs rfl a ha hb
      omega
    · have hone := cnt_importNameEntries_pos d s.name (Or.inl ⟨s, hs, rfl⟩)
      have htwo := cnt_importNameEntries_pos d0 s.name (checked_bindingNamed hb)
      have := cnt_flatMap_ge_two u.imports importNameEntries d d0 hd hd0 hdd s.name
      omega
  have := cnt_entries_le_occ u s.name hid
  omega

/-- A name slot (aliased or not) never reported: same counting argument
with the slot as second occurrence. -/
theorem binding_site_not_unused (u : SourceUnit)
    (n : List Char) (hn : isIdent n = true)
    (htwo : 2 ≤ cnt (unitNameEntries u) n) : n ∉ unusedImportsOf u := by
  intro hmem
  rw [mem_unusedImportsOf] at hmem
  have := cnt_entries_le_occ u n hn
  omega

theorem occToks_importToks_decomp (d : ImportDecl) (n : List Char) :
    occToks (importToks d) n =
      occToks [kwImport] n
      + occToks (match d.defaultImport with
          | some dn => [dn, tkComma] | none => []) n
      + occToks [tkLBrace] n
      + (d.named.map (fun s => occToks (namedSpecToks s) n)).sum
      + occToks [tkRBrace] n
      + occToks (match d.namespaceImport with
          | some nsn => [tkComma, tkStar, kwAs, nsn] | none => []) n
      + occToks [kwFrom, quoteTok d.moduleSpecifier, tkSemi] n := by
  unfold importToks
  rw [occToks_append, occToks_append, occToks_append, occToks_append,
    occToks_append, occToks_append, occToks_commaJoin, List.map_map]
  have : (fun g => occToks g n) ∘ namedSpecToks
      = fun s => occToks (namedSpecToks s) n := rfl
  rw [this]

theorem sum_map_filter_eq {α} (l : List α) (keep : α → Bool) (f : α → Nat)
    (h : ∀ x ∈ l, keep x = false → f x = 0) :
    ((l.filter keep).map f).sum = (l.map f).sum := by
  induction l with
  | nil => simp
  | cons x rest ih =>
    by_cases hk : keep x
    · rw [List.filter_cons_of_pos hk]
      simp only [List.map_cons, List.sum_cons]
      rw [ih (fun y hy hky => h y (by simp [hy]) hky)]
    · rw [List.filter_cons_of_neg (by simpa using hk)]
      simp only [List.map_cons, List.sum_cons]
      rw [h x (by simp) (by simpa using hk),
        ih (fun y hy hky => h y (by simp [hy]) hky)]
      omega

theorem removeDecl_named (L : List (List Char)) (d : ImportDecl) :
    (removeUnusedImportsDecl L d).1.named
      = d.named.filter (fun s => !(decide (s.name ∈ L))) := rfl

theorem removeDecl_default (L : List (List Char)) (d : ImportDecl) :
    (removeUnusedImportsDecl L d).1.defaultImport
      = match d.defaultImport with
        | some dn => if dn ∈ L then none else some dn
        | none => none := rfl

theorem removeDecl_ns (L : List (List Char)) (d : ImportDecl) :
    (removeUnusedImportsDecl L d).1.namespaceImport = d.namespaceImport := rfl

theorem removeDecl_spec (L : List (List Char)) (d : ImportDecl) :
    (removeUnusedImportsDecl L d).1.moduleSpecifier = d.moduleSpecifier := rfl

/-- Removing import bindings whose names differ from `n` (all of them
non-aliased identifiers) does not change the occurrence count of `n` in
the declaration's printed tokens. -/
theorem occToks_importToks_removed (d : ImportDecl) (L : List (List Char))
    (n : List Char) (hwd : wfImportDecl d = true)
    (hrem : ∀ s ∈ d.named, s.name ∈ L → s.aliasName = none)
    (hnamed : ∀ s ∈ d.named, s.name ∈ L → s.name ≠ n)
    (hdefd : ∀ dn, d.defaultImport = some dn → dn ∈ L → dn ≠ n) :
    occToks (importToks (removeUnusedImportsDecl L d).1) n
      = occToks (importToks d) n := by
  rw [occToks_importToks_decomp, occToks_importToks_decomp,
    removeDecl_named, removeDecl_default, removeDecl_ns, removeDecl_spec]
  have hsum : ((d.named.filter (fun s => !(decide (s.name ∈ L)))).map
        (fun s => occToks (namedSpecToks s) n)).sum
      = (d.named.map (fun s => occToks (namedSpecToks s) n)).sum := by
    refine sum_map_filter_eq _ _ _ ?_
    intro s hs hk
    simp only [Bool.not_eq_false', decide_eq_true_eq] at hk
    have hal := hrem s hs hk
    have hne := hnamed s hs hk
    have hid := wf_spec_name d hwd s hs
    unfold namedSpecToks
    rw [hal]
    simp only [occToks]
    rw [wordRuns_ident s.name hid]
    simp [cnt, hne]
  rw [hsum]
  have hdef2 : occToks (match (match d.defaultImport with
        | some dn => if dn ∈ L then none else some dn
        | none => none) with
      | some dn => [dn, tkComma] | none => []) n
    = occToks (match d.defaultImport with
        | some dn => [dn, tkComma] | none => []) n := by
    cases hdef : d.defaultImport with
    | none => rfl
    | some dn =>
      by_cases hmem : dn ∈ L
      · simp only [if_pos hmem]
        have hne := hdefd dn hdef hmem
        have hid := wf_default_name d hwd dn hdef
        simp only [occToks]
        rw [wordRuns_ident dn hid]
        have hcomma : wordRuns tkComma = [] := by decide
        simp [cnt, hne, hcomma]
      · simp only [if_neg hmem]
  rw [hdef2]

theorem removeModel_path (u : SourceUnit) (l : List (List Char)) :
    (removeUnusedImportsModel u l).1.path = u.path := rfl

theorem removeModel_varDecls (u : SourceUnit) (l : List (List Char)) :
    (removeUnusedImportsModel u l).1.varDecls = u.varDecls := rfl

theorem removeModel_funcDecls (u : SourceUnit) (l : List (List Char)) :
    (removeUnusedImportsModel u l).1.funcDecls = u.funcDecls := rfl

theorem removeModel_classDecls (u : SourceUnit) (l : List (List Char)) :
    (removeUnusedImportsModel u l).1.classDecls = u.classDecls := rfl

theorem removeModel_bodyText (u : SourceUnit) (l : List (List Char)) :
    (removeUnusedImportsModel u l).1.bodyText = u.bodyText := rfl

theorem removeModel_imports (u : SourceUnit) (l : List (List Char)) :
    (removeUnusedImportsModel u l).1.imports
      = u.imports.map (fun d => (removeUnusedImportsDecl l d).1) := by
  show (u.imports.map (removeUnusedImportsDecl l)).map Prod.fst = _
  rw [List.map_map]
  rfl

theorem removeModel_flag (u : SourceUnit) (l : List (List Char)) :
    (removeUnusedImportsModel u l).2
      = (u.imports.map (removeUnusedImportsDecl l)).any Prod.snd := rfl

/-- Removing the unused imports of a unit does not change the occurrence
count of any name not in the unused list. -/
theorem occ_after_removal (u : SourceUnit) (hwf : unitWFImports u = true)
    (n : List Char) (hnL : n ∉ unusedImportsOf u) :
    occUnit (removeUnusedImportsModel u (unusedImportsOf u)).1 n = occUnit u n := by
  rw [occUnit_eq, occUnit_eq]
  unfold unitToks
  rw [removeModel_varDecls, removeModel_funcDecls, removeModel_classDecls,
    removeModel_bodyText, removeModel_imports]
  rw [occToks_append, occToks_append, occToks_append, occToks_append,
    occToks_append, occToks_append, occToks_append, occToks_append]
  have himp : occToks ((u.imports.map
        (fun d => (removeUnusedImportsDecl (unusedImportsOf u) d).1)).flatMap
        importToks) n
      = occToks (u.imports.flatMap importToks) n := by
    rw [occToks_flatMap, occToks_flatMap, List.map_map]
    refine congrArg List.sum (List.map_congr_left ?_)
    intro d hd
    show occToks (importToks (removeUnusedImportsDecl (unusedImportsOf u) d).1) n
      = occToks (importToks d) n
    refine occToks_importToks_removed d (unusedImportsOf u) n
      (wf_decl u hwf d hd) ?_ ?_ ?_
    · intro s hs hmem
      cases halias : s.aliasName with
      | none => rfl
      | some a => exact absurd hmem (aliased_not_unused u hwf d hd s hs a halias)
    · intro s hs hmem heq
      rw [heq] at hmem
      exact hnL hmem
    · intro dn _ hmem heq
      rw [heq] at hmem
      exact hnL hmem
  rw [himp]

theorem wf_after_removal (u : SourceUnit) (hwf : unitWFImports u = true)
    (l : List (List Char)) :
    unitWFImports (removeUnusedImportsModel u l).1 = true := by
  unfold unitWFImports
  rw [removeModel_imports, List.all_eq_true]
  intro d' hd'
  rw [List.mem_map] at hd'
  obtain ⟨d, hd, rfl⟩ := hd'
  have hwd := wf_decl u hwf d hd
  unfold wfImportDecl at hwd ⊢
  simp only [Bool.and_eq_true] at hwd ⊢
  refine ⟨⟨?_, ?_⟩, ?_⟩
  · rw [removeDecl_default]
    cases hdef : d.defaultImport with
    | none => rfl
    | some dn =>
      by_cases hmem : dn ∈ l
      · simp [if_pos hmem]
      · simp only [if_neg hmem]
        have := hwd.1.1
        rw [hdef] at this
        exact this
  · rw [removeDecl_named, List.all_eq_true]
    intro s hs
    exact List.all_eq_true.mp hwd.1.2 s (List.mem_of_mem_filter hs)
  · rw [removeDecl_ns]
    exact hwd.2

/-- After one removal pass, the removal pass driven by the re-computed
analysis removes nothing (the per-unit modified flag is false). -/
theorem second_removal_flag_false (u : SourceUnit) (hwf : unitWFImports u = true) :
    (removeUnusedImportsModel (removeUnusedImportsModel u (unusedImportsOf u)).1
      (unusedImportsOf (removeUnusedImportsModel u (unusedImportsOf u)).1)).2
      = false := by
  have hwf1 := wf_after_removal u hwf (unusedImportsOf u)
  rw [removeModel_flag, List.any_eq_false]
  intro pr hpr
  rw [List.mem_map] at hpr
  obtain ⟨d1, hd1, rfl⟩ := hpr
  have hd1src := hd1
  rw [removeModel_imports, List.mem_map] at hd1src
  obtain ⟨d, hd, hdeq⟩ := hd1src
  simp only [Bool.not_eq_true]
  show ((d1.named.any fun s =>
      decide (s.name ∈ unusedImportsOf (removeUnusedImportsModel u
        (unusedImportsOf u)).1))
    || match d1.defaultImport with
       | some dn => decide (dn ∈ unusedImportsOf (removeUnusedImportsModel u
           (unusedImportsOf u)).1)
       | none => false) = false
  have hnamed : ∀ s ∈ d1.named,
      s.name ∉ unusedImportsOf (removeUnusedImportsModel u (unusedImportsOf u)).1 := by
    intro s hs
    cases halias : s.aliasName with
    | some a =>
      exact aliased_not_unused _ hwf1 d1 hd1 s hs a halias
    | none =>
      intro hmem
      rw [mem_unusedImportsOf] at hmem
      obtain ⟨hocc1, _⟩ := hmem
      have hsrc : s ∈ d.named ∧ s.name ∉ unusedImportsOf u := by
        rw [← hdeq, removeDecl_named, List.mem_filter] at hs
        refine ⟨hs.1, ?_⟩
        simpa using hs.2
      have hge : 2 ≤ occUnit u s.name := by
        by_contra hlt
        push_neg at hlt
        exact hsrc.2 ((mem_unusedImportsOf u s.name).mpr
          ⟨by omega, d, hd, Or.inl ⟨s, hsrc.1, halias, rfl⟩⟩)
      rw [occ_after_removal u hwf s.name hsrc.2] at hocc1
      omega
  have hnamedb : (d1.named.any fun s =>
      decide (s.name ∈ unusedImportsOf (removeUnusedImportsModel u
        (unusedImportsOf u)).1)) = false := by
    rw [List.any_eq_false]
    intro s hs
    simpa using hnamed s hs
  rw [hnamedb]
  cases hdef1 : d1.defaultImport with
  | none => rfl
  | some dn =>
    have hsrc : d.defaultImport = some dn ∧ dn ∉ unusedImportsOf u := by
      rw [← hdeq, removeDecl_default] at hdef1
      cases hdef : d.defaultImport with
      | none =>
        rw [hdef] at hdef1
        exact Option.noConfusion hdef1
      | some dn0 =>
        rw [hdef] at hdef1
        have hred : (if dn0 ∈ unusedImportsOf u then none else some dn0)
            = some dn := hdef1
        by_cases hmem : dn0 ∈ unusedImportsOf u
        · rw [if_pos hmem] at hred
          exact Option.noConfusion hred
        · rw [if_neg hmem] at hred
          have heq : dn0 = dn := Option.some_inj.mp hred
          subst heq
          exact ⟨rfl, hmem⟩
    simp only [Bool.false_or]
    rw [decide_eq_false_iff_not]
    intro hmem
    rw [mem_unusedImportsOf] at hmem
    obtain ⟨hocc1, _⟩ := hmem
    have hge : 2 ≤ occUnit u dn := by
      by_contra hlt
      push_neg at hlt
      exact hsrc.2 ((mem_unusedImportsOf u dn).mpr
        ⟨by omega, d, hd, Or.inr (Or.inl hsrc.1)⟩)
    rw [occ_after_removal u hwf dn hsrc.2] at hocc1
    omega

theorem findUnusedImportsModel_eq (files : List SourceUnit) :
    findUnusedImportsModel files
      = files.filterMap (fun v => if unusedImportsOf v = [] then none
          else some ⟨v.path, unusedImportsOf v⟩) := rfl

theorem lookupNames_not_mem (files : List SourceUnit)
    (g : SourceUnit → List (List Char)) (p : List Char)
    (hp : p ∉ files.map (·.path)) :
    lookupNames (files.filterMap (fun v => if g v = [] then none
      else some ⟨v.path, g v⟩)) p = none := by
  induction files with
  | nil => rfl
  | cons v rest ih =>
    have hpv : p ≠ v.path := by
      intro h
      exact hp (by simp [h])
    have hprest : p ∉ rest.map (·.path) := by
      intro h
      exact hp (by simp [h])
    rw [List.filterMap_cons]
    by_cases hgv : g v = []
    · rw [if_pos hgv]
      exact ih hprest
    · rw [if_neg hgv]
      unfold lookupNames
      rw [List.find?_cons]
      have : (decide ((⟨v.path, g v⟩ : FileNames).file = p)) = false := by
        simp [hpv.symm]
      rw [this]
      exact ih hprest

theorem lookupNames_filterMap (files : List SourceUnit)
    (g : SourceUnit → List (List Char)) (u : SourceUnit) (hu : u ∈ files)
    (hnd : (files.map (·.path)).Nodup) :
    lookupNames (files.filterMap (fun v => if g v = [] then none
      else some ⟨v.path, g v⟩)) u.path
      = if g u = [] then none else some (g u) := by
  induction files with
  | nil => simp at hu
  | cons v rest ih =>
    rw [List.map_cons, List.nodup_cons] at hnd
    rcases List.mem_cons.mp hu with hv | hrest
    · subst hv
      rw [List.filterMap_cons]
      by_cases hgv : g u = []
      · rw [if_pos hgv, if_pos hgv]
        exact lookupNames_not_mem rest g u.path hnd.1
      · rw [if_neg hgv, if_neg hgv]
        unfold lookupNames
        rw [List.find?_cons]
        have : (decide ((⟨u.path, g u⟩ : FileNames).file = u.path)) = true := by simp
        rw [this]
        rfl
    · have hne : u.path ≠ v.path := by
        intro h
        exact hnd.1 (by rw [← h]; exact List.mem_map.mpr ⟨u, hrest, rfl⟩)
      rw [List.filterMap_cons]
      by_cases hgv : g v = []
      · rw [if_pos hgv]
        exact ih hrest hnd.2
      · rw [if_neg hgv]
        unfold lookupNames
        rw [List.find?_cons]
        have : (decide ((⟨v.path, g v⟩ : FileNames).file = u.path)) = false := by
          simp [hne.symm]
        rw [this]
        exact ih hrest hnd.2

theorem cleanStepUnit_noDeep (opts : CleanerOptions) (hds : opts.deepScrub = false)
    (ui uv uf : List FileNames) (u : SourceUnit) :
    cleanStepUnit opts ui uv uf u
      = (match lookupNames ui u.path with
         | some l => removeUnusedImportsModel u l
         | none => (u, false)) := by
  unfold cleanStepUnit
  rw [hds]
  simp

theorem removeVars_path (u : SourceUnit) (l : List (List Char)) :
    (removeUnusedVariablesModel u l).1.path = u.path := rfl

theorem removeFuncs_path (u : SourceUnit) (l : List (List Char)) :
    (removeUnusedFunctionsModel u l).1.path = u.path := rfl

theorem cleanStep_path (opts : CleanerOptions) (ui uv uf : List FileNames)
    (u : SourceUnit) : (cleanStepUnit opts ui uv uf u).1.path = u.path := by
  simp only [cleanStepUnit]
  repeat' split
  all_goals simp_all [removeModel_path, removeVars_path, removeFuncs_path]

theorem cleanModel_noDeep (opts : CleanerOptions) (proj : Project)
    (hdry : opts.dryRun = false) (hrm : opts.removeUnused = true)
    (hds : opts.deepScrub = false) :
    cleanModel opts proj =
      ({ proj with
          files := proj.files.map (fun u =>
            (cleanStepUnit opts (findUnusedImportsModel proj.files) [] [] u).1) },
       ⟨[], findUnusedImportsModel proj.files, [], [],
        (proj.files.map
          (cleanStepUnit opts (findUnusedImportsModel proj.files) [] [])).filterMap
          (fun p => if p.2 then some p.1.path else none),
        [], 0⟩) := by
  unfold cleanModel
  rw [hdry, hrm, hds]
  simp [List.map_map]

theorem filterMap_modified_nil (L : List (SourceUnit × Bool))
    (hL : ∀ p ∈ L, p.2 = false) :
    L.filterMap (fun p => if p.2 then some p.1.path else none) = [] := by
  induction L with
  | nil => rfl
  | cons a t ih =>
    rw [List.filterMap_cons]
    rw [hL a (List.mem_cons_self a t)]
    simp only [if_neg Bool.false_ne_true]
    exact ih (fun p hp => hL p (List.mem_cons_of_mem a hp))

/-- C6 (amended): for import-only apply runs (deep scrub off), a second
apply pass on the first pass's output modifies no file and deletes none —
the first run's output is a fixed point of the import-removal pipeline
(the deep-scrub pipeline is not idempotent, see the counterexample). -/
theorem second_apply_noop (opts : CleanerOptions) (proj : Project)
    (hdry : opts.dryRun = false) (hrm : opts.removeUnused = true)
    (hds : opts.deepScrub = false)
    (hwf : proj.files.all unitWFImports = true)
    (hnd : (proj.files.map (·.path)).Nodup) :
    (cleanModel opts (cleanModel opts proj).1).2.modifiedFiles = []
    ∧ (cleanModel opts (cleanModel opts proj).1).2.deletedFiles = [] := by
  set ui := findUnusedImportsModel proj.files with hui
  set files1 := proj.files.map (fun u => (cleanStepUnit opts ui [] [] u).1) with hf1
  have hpaths : files1.map (·.path) = proj.files.map (·.path) := by
    rw [hf1, List.map_map]
    exact List.map_congr_left (fun u _ => cleanStep_path opts ui [] [] u)
  have hnd1 : (files1.map (·.path)).Nodup := by
    rw [hpaths]; exact hnd
  have hflag : ∀ u1 ∈ files1,
      (cleanStepUnit opts (findUnusedImportsModel files1) [] [] u1).2 = false := by
    intro u1 hu1
    rw [cleanStepUnit_noDeep opts hds]
    have hlook : lookupNames (findUnusedImportsModel files1) u1.path
        = if unusedImportsOf u1 = [] then none else some (unusedImportsOf u1) := by
      rw [findUnusedImportsModel_eq]
      exact lookupNames_filterMap files1 unusedImportsOf u1 hu1 hnd1
    by_cases hempty : unusedImportsOf u1 = []
    · rw [hlook, if_pos hempty]
    · rw [hlook, if_neg hempty]
      rw [hf1, List.mem_map] at hu1
      obtain ⟨u, hu, hequ⟩ := hu1
      have hwfu : unitWFImports u = true := List.all_eq_true.mp hwf u hu
      rw [cleanStepUnit_noDeep opts hds] at hequ
      have hlooku : lookupNames ui u.path
          = if unusedImportsOf u = [] then none else some (unusedImportsOf u) := by
        rw [hui, findUnusedImportsModel_eq]
        exact lookupNames_filterMap proj.files unusedImportsOf u hu hnd
      by_cases hemptyu : unusedImportsOf u = []
      · rw [hlooku, if_pos hemptyu] at hequ
        have hq : u = u1 := hequ
        rw [← hq] at hempty
        exact absurd hemptyu hempty
      · rw [hlooku, if_neg hemptyu] at hequ
        have hq : (removeUnusedImportsModel u (unusedImportsOf u)).1 = u1 := hequ
        rw [← hq]
        exact second_removal_flag_false u hwfu
  have hinner : (cleanModel opts proj).1 = { proj with files := files1 } := by
    rw [cleanModel_noDeep opts proj hdry hrm hds]
  rw [hinner, cleanModel_noDeep opts { proj with files := files1 } hdry hrm hds]
  refine ⟨?_, rfl⟩
  show (files1.map (cleanStepUnit opts (findUnusedImportsModel files1) [] [])).filterMap
      (fun p => if p.2 then some p.1.path else none) = []
  refine filterMap_modified_nil _ ?_
  intro p hp
  rw [List.mem_map] at hp
  obtain ⟨u1, hu1, rfl⟩ := hp
  exact hflag u1 hu1

theorem mem_unusedVariablesOf (u : SourceUnit) (n : List Char) :
    n ∈ unusedVariablesOf u ↔
      ∃ v ∈ u.varDecls, v.name = n
        ∧ (v.name = [] ∨ hasBraceOrBracket v.name = true) = False ∧ v.inLoop = false
        ∧ occUnit u v.name ≤ 1 ∧ v.exported = false := by
  unfold unusedVariablesOf
  rw [List.mem_map]
  constructor
  · rintro ⟨v, hv, hname⟩
    rw [List.mem_filter] at hv
    have hp := hv.2
    simp only [Bool.and_eq_true, Bool.not_eq_true', decide_eq_true_eq,
      Bool.or_eq_false_iff, decide_eq_false_iff_not] at hp
    refine ⟨v, hv.1, hname, ?_, hp.1.1.2, hp.1.2, hp.2⟩
    simp only [eq_iff_iff, iff_false]
    rintro (h | h)
    · exact hp.1.1.1.1 h
    · rw [hp.1.1.1.2] at h
      exact Bool.false_ne_true h
  · rintro ⟨v, hv, hname, hskip, hloop, hocc, hexp⟩
    refine ⟨v, ?_, hname⟩
    rw [List.mem_filter]
    refine ⟨hv, ?_⟩
    simp only [eq_iff_iff, iff_false] at hskip
    simp only [Bool.and_eq_true, Bool.not_eq_true', decide_eq_true_eq,
      Bool.or_eq_false_iff, decide_eq_false_iff_not]
    refine ⟨⟨⟨⟨?_, ?_⟩, hloop⟩, hocc⟩, hexp⟩
    · intro h; exact hskip (Or.inl h)
    · by_contra h
      exact hskip (Or.inr (by revert h; cases hasBraceOrBracket v.name <;> simp))

theorem mem_unusedFunctionsOf (u : SourceUnit) (n : List Char) :
    n ∈ unusedFunctionsOf u ↔
      (∃ f ∈ u.funcDecls, f.name = n ∧ f.name ≠ [] ∧ occUnit u f.name ≤ 1
        ∧ f.exported = false)
      ∨ (∃ c ∈ u.classDecls, c.exported = false ∧ c.name ≠ []
          ∧ ∃ m ∈ c.methods, m.isPrivate = false ∧ m.isGetter = false
            ∧ m.isSetter = false ∧ m.name ≠ ctorName ∧ occUnit u m.name ≤ 1
            ∧ n = c.name ++ '.' :: m.name) := by
  unfold unusedFunctionsOf
  rw [List.mem_append]
  constructor
  · rintro (hA | hB)
    · rw [List.mem_map] at hA
      obtain ⟨f, hf, hname⟩ := hA
      rw [List.mem_filter] at hf
      have hp := hf.2
      simp only [Bool.and_eq_true, Bool.not_eq_true', decide_eq_true_eq] at hp
      exact Or.inl ⟨f, hf.1, hname, hp.1.1, hp.1.2, hp.2⟩
    · rw [List.mem_flatMap] at hB
      obtain ⟨c, hc, hmem⟩ := hB
      by_cases hexp : c.exported
      · rw [if_pos hexp] at hmem
        simp at hmem
      · rw [if_neg hexp] at hmem
        rw [List.mem_map] at hmem
        obtain ⟨m, hm, hname⟩ := hmem
        rw [List.mem_filter] at hm
        have hp := hm.2
        simp only [Bool.and_eq_true, Bool.not_eq_true', decide_eq_true_eq] at hp
        exact Or.inr ⟨c, hc, Bool.eq_false_iff.mpr hexp, hp.2,
          m, hm.1, hp.1.1.1.1.1, hp.1.1.1.1.2, hp.1.1.1.2, hp.1.1.2, hp.1.2,
          hname.symm⟩
  · rintro (⟨f, hf, hname, hnonempty, hocc, hexp⟩ |
      ⟨c, hc, hexp, hcname, m, hm, hp1, hp2, hp3, hp4, hocc, hname⟩)
    · refine Or.inl ?_
      rw [List.mem_map]
      refine ⟨f, ?_, hname⟩
      rw [List.mem_filter]
      simp only [Bool.and_eq_true, Bool.not_eq_true', decide_eq_true_eq]
      exact ⟨hf, ⟨hnonempty, hocc⟩, hexp⟩
    · refine Or.inr ?_
      rw [List.mem_flatMap]
      refine ⟨c, hc, ?_⟩
      rw [if_neg (by rw [hexp]; exact Bool.false_ne_true)]
      rw [List.mem_map]
      refine ⟨m, ?_, hname.symm⟩
      rw [List.mem_filter]
      simp only [Bool.and_eq_true, Bool.not_eq_true', decide_eq_true_eq]
      exact ⟨hm, ⟨⟨⟨⟨⟨hp1, hp2⟩, hp3⟩, hp4⟩, hocc⟩, hcname⟩⟩

theorem cnt_map_ge_one {α} (l : List α) (f : α → List Char) (x : α)
    (hx : x ∈ l) (n : List Char) (hfx : f x = n) : 1 ≤ cnt (l.map f) n := by
  rw [map_eq_flatMap_singleton]
  have := cnt_flatMap_ge_one l (fun y => [f y]) x hx n
  simp [cnt, hfx] at this ⊢
  omega

theorem cnt_map_ge_two {α} (l : List α) (f : α → List Char) (x y : α)
    (hx : x ∈ l) (hy : y ∈ l) (hxy : x ≠ y) (n : List Char)
    (hfx : f x = n) (hfy : f y = n) : 2 ≤ cnt (l.map f) n := by
  rw [map_eq_flatMap_singleton]
  have := cnt_flatMap_ge_two l (fun z => [f z]) x y hx hy hxy n
  simp [cnt, hfx, hfy] at this ⊢
  omega

theorem cnt_unitNameEntries_split (u : SourceUnit) (n : List Char) :
    cnt (unitNameEntries u) n
      = cnt (u.imports.flatMap importNameEntries) n
        + cnt (u.varDecls.map (·.name)) n
        + cnt (u.funcDecls.map (·.name)) n
        + cnt (u.classDecls.flatMap (fun c => c.name :: c.methods.map (·.name))) n := by
  unfold unitNameEntries
  rw [cnt_append, cnt_append, cnt_append]

/-- An identifier contains no dot. -/
theorem ident_no_dot (n : List Char) (hn : isIdent n = true) : '.' ∉ n := by
  intro hmem
  unfold isIdent at hn
  simp only [Bool.and_eq_true, decide_eq_true_eq] at hn
  have := List.all_eq_true.mp hn.2 '.' hmem
  revert this
  decide

theorem dotted_ne_ident (a b n : List Char) (hn : isIdent n = true) :
    a ++ '.' :: b ≠ n := by
  intro h
  have : '.' ∈ n := by
    rw [← h]
    exact List.mem_append_right a (List.mem_cons_self _ _)
  exact ident_no_dot n hn this

theorem takeWhile_append_dot (a b : List Char) (ha : '.' ∉ a) :
    (a ++ '.' :: b).takeWhile (fun c => !(c == '.')) = a := by
  induction a with
  | nil => simp [List.takeWhile]
  | cons c cs ih =>
    have hc : c ≠ '.' := by
      intro h
      exact ha (by simp [h])
    rw [List.cons_append, List.takeWhile_cons]
    have hcb : (!(c == '.')) = true := by simp [hc]
    rw [hcb, ih (fun h => ha (List.mem_cons_of_mem c h))]
    simp

/-- Splitting a class-dot-method string: when the right parts are
dot-free, the decomposition is unique. -/
theorem dot_split_inj (a b a2 b2 : List Char) (ha : '.' ∉ a) (hb : '.' ∉ b)
    (h : a ++ '.' :: b = a2 ++ '.' :: b2) : a2 = a ∧ b2 = b := by
  have hcount : List.count '.' (a ++ '.' :: b) = 1 := by
    rw [List.count_append, List.count_cons]
    rw [List.count_eq_zero.mpr ha, List.count_eq_zero.mpr hb]
    simp
  have hcount2 : List.count '.' (a2 ++ '.' :: b2) = 1 := by rw [← h]; exact hcount
  have ha2 : '.' ∉ a2 := by
    intro hmem
    have h1 : List.count '.' a2 ≠ 0 := by
      intro h0
      exact (List.count_eq_zero.mp h0) hmem
    rw [List.count_append, List.count_cons] at hcount2
    simp at hcount2
    omega
  have htw := takeWhile_append_dot a b ha
  have htw2 := takeWhile_append_dot a2 b2 ha2
  rw [h] at htw
  rw [htw2] at htw
  refine ⟨htw, ?_⟩
  rw [htw] at h
  have := List.append_cancel_left h
  exact (List.cons_inj_right '.').mp this.symm

/-- C3: for every exported symbol — an exported variable, an exported
function, or a method of an exported class — the analysis never reports it
in the unused-variables or unused-functions result, regardless of its
whole-word occurrence count.  (Identifier names; function names are
identifiers or anonymous; class names are distinct, as the parser
guarantees.) -/
theorem c3_exported_never_reported (u : SourceUnit)
    (hfn : ∀ f ∈ u.funcDecls, f.name = [] ∨ isIdent f.name = true)
    (hcn : (u.classDecls.map (·.name)).Nodup) :
    (∀ v ∈ u.varDecls, v.exported = true → isIdent v.name = true →
      v.name ∉ unusedVariablesOf u ∧ v.name ∉ unusedFunctionsOf u)
    ∧ (∀ f ∈ u.funcDecls, f.exported = true → isIdent f.name = true →
      f.name ∉ unusedVariablesOf u ∧ f.name ∉ unusedFunctionsOf u)
    ∧ (∀ c ∈ u.classDecls, c.exported = true → isIdent c.name = true →
      ∀ m ∈ c.methods, isIdent m.name = true →
        (c.name ++ '.' :: m.name) ∉ unusedFunctionsOf u) := by
  refine ⟨?_, ?_, ?_⟩
  · intro v hv hexp hid
    constructor
    · intro hmem
      rw [mem_unusedVariablesOf] at hmem
      obtain ⟨w, hw, hname, _, _, hocc, hwexp⟩ := hmem
      have hvw : w ≠ v := by
        intro h
        rw [h, hexp] at hwexp
        simp at hwexp
      have h2 : 2 ≤ cnt (u.varDecls.map (·.name)) v.name :=
        cnt_map_ge_two _ _ w v hw hv hvw _ hname rfl
      have hle := cnt_entries_le_occ u v.name hid
      rw [cnt_unitNameEntries_split] at hle
      rw [hname] at hocc
      omega
    · intro hmem
      rw [mem_unusedFunctionsOf] at hmem
      rcases hmem with ⟨g, hg, hname, _, hocc, _⟩ |
        ⟨c2, _, _, _, m2, _, _, _, _, _, _, hname⟩
      · have h1 : 1 ≤ cnt (u.varDecls.map (·.name)) v.name :=
          cnt_map_ge_one _ _ v hv _ rfl
        have h2 : 1 ≤ cnt (u.funcDecls.map (·.name)) v.name :=
          cnt_map_ge_one _ _ g hg _ hname
        have hle := cnt_entries_le_occ u v.name hid
        rw [cnt_unitNameEntries_split] at hle
        rw [hname] at hocc
        omega
      · exact dotted_ne_ident c2.name m2.name v.name hid hname.symm
  · intro f hf hexp hid
    constructor
    · intro hmem
      rw [mem_unusedVariablesOf] at hmem
      obtain ⟨w, hw, hname, _, _, hocc, _⟩ := hmem
      have h1 : 1 ≤ cnt (u.varDecls.map (·.name)) f.name :=
        cnt_map_ge_one _ _ w hw _ hname
      have h2 : 1 ≤ cnt (u.funcDecls.map (·.name)) f.name :=
        cnt_map_ge_one _ _ f hf _ rfl
      have hle := cnt_entries_le_occ u f.name hid
      rw [cnt_unitNameEntries_split] at hle
      rw [hname] at hocc
      omega
    · intro hmem
      rw [mem_unusedFunctionsOf] at hmem
      rcases hmem with ⟨g, hg, hname, _, hocc, hgexp⟩ |
        ⟨c2, _, _, _, m2, _, _, _, _, _, _, hname⟩
      · have hgf : g ≠ f := by
          intro h
          rw [h, hexp] at hgexp
          simp at hgexp
        have h2 : 2 ≤ cnt (u.funcDecls.map (·.name)) f.name :=
          cnt_map_ge_two _ _ g f hg hf hgf _ hname rfl
        have hle := cnt_entries_le_occ u f.name hid
        rw [cnt_unitNameEntries_split] at hle
        rw [hname] at hocc
        omega
      · exact dotted_ne_ident c2.name m2.name f.name hid hname.symm
  · intro c hc hexp hcid m _ hmid
    intro hmem
    rw [mem_unusedFunctionsOf] at hmem
    rcases hmem with ⟨g, hg, hname, hgne, _, _⟩ |
      ⟨c2, hc2, hc2exp, _, m2, _, _, _, _, _, _, hname⟩
    · rcases hfn g hg with h0 | hgid
      · exact hgne h0
      · exact dotted_ne_ident c.name m.name g.name hgid hname.symm
    · have hsplit := dot_split_inj c.name m.name c2.name m2.name
        (ident_no_dot c.name hcid) (ident_no_dot m.name hmid) hname
      have hcc : c2 = c := by
        have hinj := List.inj_on_of_nodup_map hcn
        exact hinj hc2 hc hsplit.1
      rw [hcc, hexp] at hc2exp
      simp at hc2exp

/-- C3 (witness): the exported variable apiUrl, exported function helper
and method run of the exported class Svc are never reported unused, even
though each occurs exactly once in the file. -/
theorem c3_witness :
    (str "apiUrl") ∉ unusedVariablesOf exC3unit
    ∧ (str "helper") ∉ unusedFunctionsOf exC3unit
    ∧ (str "Svc" ++ '.' :: str "run") ∉ unusedFunctionsOf exC3unit := by
  have h := c3_exported_never_reported exC3unit (by decide) (by decide)
  refine ⟨?_, ?_, ?_⟩
  · exact (h.1 ⟨str "apiUrl", false, true, str ""⟩ (by decide) rfl (by decide)).1
  · exact (h.2.1 ⟨str "helper", true, str ""⟩ (by decide) rfl (by decide)).2
  · exact h.2.2 ⟨str "Svc", true, [⟨str "run", false, false, false, str ""⟩]⟩
      (by decide) rfl (by decide) ⟨str "run", false, false, false, str ""⟩
      (by decide) (by decide)

theorem wf_spec_alias (d : ImportDecl) (hwd : wfImportDecl d = true)
    (s : NamedSpec) (hs : s ∈ d.named) (a : List Char)
    (ha : s.aliasName = some a) : isIdent a = true := by
  unfold wfImportDecl at hwd
  simp only [Bool.and_eq_true] at hwd
  have := List.all_eq_true.mp hwd.1.2 s hs
  simp only [Bool.and_eq_true] at this
  have h2 := this.2
  rw [ha] at h2
  exact h2

theorem cnt_specEntries_alias (s : NamedSpec) (a : List Char)
    (ha : s.aliasName = some a) : 1 ≤ cnt (specEntries s) a := by
  unfold specEntries
  rw [ha]
  simp [cnt]

theorem cnt_importNameEntries_pos_alias (d : ImportDecl) (s : NamedSpec)
    (hs : s ∈ d.named) (a : List Char) (ha : s.aliasName = some a) :
    1 ≤ cnt (importNameEntries d) a := by
  unfold importNameEntries
  rw [cnt_append, cnt_append]
  have h1 := cnt_flatMap_ge_one d.named specEntries s hs a
  have h2 := cnt_specEntries_alias s a ha
  omega

theorem cnt_importNameEntries_two_alias (d : ImportDecl) (s : NamedSpec)
    (hs : s ∈ d.named) (a : List Char) (ha : s.aliasName = some a)
    (hb : isCheckedBinding d a) : 2 ≤ cnt (importNameEntries d) a := by
  unfold importNameEntries
  rw [cnt_append, cnt_append]
  rcases hb with ⟨s0, hs0, hal0, hname0⟩ | hdef | hns
  · have hne : s ≠ s0 := by
      intro hEq
      rw [hEq, hal0] at ha
      exact Option.noConfusion ha
    have := cnt_flatMap_ge_two d.named specEntries s s0 hs hs0 hne a
    have e1 := cnt_specEntries_alias s a ha
    have e2 := cnt_specEntries_name s0 a hname0
    omega
  · rw [hdef]
    have h1 := cnt_flatMap_ge_one d.named specEntries s hs a
    have h2 := cnt_specEntries_alias s a ha
    simp [cnt]
    omega
  · rw [hns]
    have h1 := cnt_flatMap_ge_one d.named specEntries s hs a
    have h2 := cnt_specEntries_alias s a ha
    simp [cnt]
    omega

/-- The alias of a named import is never reported either. -/
theorem alias_not_unused (u : SourceUnit) (hwf : unitWFImports u = true)
    (d : ImportDecl) (hd : d ∈ u.imports) (s : NamedSpec) (hs : s ∈ d.named)
    (a : List Char) (ha : s.aliasName = some a) : a ∉ unusedImportsOf u := by
  intro hmem
  rw [mem_unusedImportsOf] at hmem
  obtain ⟨hocc, d0, hd0, hb⟩ := hmem
  have hid : isIdent a = true := wf_spec_alias d (wf_decl u hwf d hd) s hs a ha
  have h2 : 2 ≤ cnt (unitNameEntries u) a := by
    rw [cnt_unitNameEntries_split]
    by_cases hdd : d = d0
    · subst hdd
      have := cnt_flatMap_ge_one u.imports importNameEntries d hd a
      have := cnt_importNameEntries_two_alias d s hs a ha hb
      omega
    · have hone := cnt_importNameEntries_pos_alias d s hs a ha
      have htwo := cnt_importNameEntries_pos d0 a (checked_bindingNamed hb)
      have := cnt_flatMap_ge_two u.imports importNameEntries d d0 hd hd0 hdd a
      omega
  have := cnt_entries_le_occ u a hid
  omega

theorem mem_findUnusedImportsModel (files : List SourceUnit) (u : SourceUnit)
    (hu : u ∈ files) (hnd : (files.map (·.path)).Nodup) (n : List Char) :
    listedFor (findUnusedImportsModel files) u.path n ↔ n ∈ unusedImportsOf u := by
  rw [findUnusedImportsModel_eq]
  constructor
  · rintro ⟨e, he, hfile, hn⟩
    rw [List.mem_filterMap] at he
    obtain ⟨v, hv, hsome⟩ := he
    by_cases hemp : unusedImportsOf v = []
    · rw [if_pos hemp] at hsome
      exact Option.noConfusion hsome
    · rw [if_neg hemp] at hsome
      have he2 := Option.some_inj.mp hsome
      have hvp : v.path = u.path := by
        rw [← hfile, ← he2]
      have hvu : v = u := List.inj_on_of_nodup_map hnd hv hu hvp
      rw [← he2] at hn
      rw [← hvu]
      exact hn
  · intro hn
    have hemp : unusedImportsOf u ≠ [] := List.ne_nil_of_mem hn
    refine ⟨⟨u.path, unusedImportsOf u⟩, ?_, rfl, hn⟩
    rw [List.mem_filterMap]
    exact ⟨u, hu, by rw [if_neg hemp]⟩

/-- C4 (amended): for every parsed source file and each of its checked
bindings — non-aliased named imports, default imports, and namespace
imports — the binding's name is listed in that file's unused-imports
result exactly when the number of whole-word occurrences of the name in
the file's raw text is at most 1; aliased named imports are skipped. -/
theorem c4_amended_unused_import_iff (files : List SourceUnit) (u : SourceUnit)
    (hu : u ∈ files) (hnd : (files.map (·.path)).Nodup) (n : List Char) :
    listedFor (findUnusedImportsModel files) u.path n ↔
      occUnit u n ≤ 1 ∧ ∃ d ∈ u.imports, isCheckedBinding d n :=
  (mem_findUnusedImportsModel files u hu hnd n).trans (mem_unusedImportsOf u n)

/-- C4 (counterexample): a file whose only import binding is the aliased
named import `foo as bar`; `foo` occurs once (at most once) in the raw
text, yet `foo` is not listed in the unused-imports result — refuting the
claim's biconditional for named-import bindings. -/
theorem c4_counterexample :
    (∃ d ∈ exC4unit.imports, ∃ s ∈ d.named, s.name = str "foo")
    ∧ occUnit exC4unit (str "foo") ≤ 1
    ∧ str "foo" ∉ unusedImportsOf exC4unit := by decide

/-- C4 (witness): Scenario A — the unused-imports result for the file is
exactly the list containing useRef. -/
theorem c4_witness :
    listedFor (findUnusedImportsModel [exC4scenario]) exC4scenario.path (str "useRef")
    ∧ unusedImportsOf exC4scenario = [str "useRef"] :=
  ⟨(c4_amended_unused_import_iff [exC4scenario] exC4scenario (by decide) (by decide)
      (str "useRef")).mpr (by decide),
   by decide⟩

/-- C5 (amended): apply removes only the unused named-import specifiers
and clears an unused default import; the import declaration itself is
never removed (the declaration count is preserved even when all of its
named and default imports are unused), and used imports in the same
statement stay intact. -/
theorem c5_amended_removal (u : SourceUnit) :
    (removeUnusedImportsModel u (unusedImportsOf u)).1.imports.length
      = u.imports.length
    ∧ ∀ d ∈ u.imports,
        (∀ s ∈ d.named, 2 ≤ occUnit u s.name →
          s ∈ (removeUnusedImportsDecl (unusedImportsOf u) d).1.named)
        ∧ (∀ s ∈ d.named, s.aliasName = none → occUnit u s.name ≤ 1 →
          s ∉ (removeUnusedImportsDecl (unusedImportsOf u) d).1.named)
        ∧ (removeUnusedImportsDecl (unusedImportsOf u) d).1.moduleSpecifier
          = d.moduleSpecifier := by
  refine ⟨by rw [removeModel_imports, List.length_map], ?_⟩
  intro d hd
  refine ⟨?_, ?_, removeDecl_spec _ d⟩
  · intro s hs hocc
    rw [removeDecl_named, List.mem_filter]
    refine ⟨hs, ?_⟩
    simp only [Bool.not_eq_true', decide_eq_false_iff_not]
    intro hmem
    rw [mem_unusedImportsOf] at hmem
    omega
  · intro s hs hal hocc
    rw [removeDecl_named, List.mem_filter]
    rintro ⟨_, hkeep⟩
    simp only [Bool.not_eq_true', decide_eq_false_iff_not] at hkeep
    exact hkeep ((mem_unusedImportsOf u s.name).mpr
      ⟨hocc, d, hd, Or.inl ⟨s, hs, hal, rfl⟩⟩)

/-- C5 (counterexample): a declaration whose single named import is
unused; after removal the import statement is still present (with an
empty import list) — the statement is not removed entirely. -/
theorem c5_counterexample :
    unusedImportsOf exC5unit = [str "foo"]
    ∧ (removeUnusedImportsModel exC5unit (unusedImportsOf exC5unit)).1.imports.length = 1
    ∧ (removeUnusedImportsModel exC5unit (unusedImportsOf exC5unit)).1.imports ≠ [] := by
  decide

/-- C5 (witness): in a statement importing bar (used) and foo (unused),
apply keeps bar, drops foo, and keeps the statement. -/
theorem c5_witness :
    (removeUnusedImportsModel exC5mixed (unusedImportsOf exC5mixed)).1.imports.length
      = exC5mixed.imports.length
    ∧ (⟨str "bar", none⟩ : NamedSpec) ∈
        (removeUnusedImportsDecl (unusedImportsOf exC5mixed) exC5decl).1.named
    ∧ (⟨str "foo", none⟩ : NamedSpec) ∉
        (removeUnusedImportsDecl (unusedImportsOf exC5mixed) exC5decl).1.named := by
  have h := c5_amended_removal exC5mixed
  refine ⟨h.1, ?_, ?_⟩
  · exact (h.2 exC5decl (by decide)).1 ⟨str "bar", none⟩ (by decide) (by decide)
  · exact (h.2 exC5decl (by decide)).2.1 ⟨str "foo", none⟩ (by decide) (by decide)
      (by decide)

/-- C10: a named import that carries an alias is never reported as unused
(neither under its original name nor under its alias) and is never removed
by apply, regardless of occurrence counts. -/
theorem c10_aliased_import_skipped (u : SourceUnit) (hwf : unitWFImports u = true)
    (d : ImportDecl) (hd : d ∈ u.imports) (s : NamedSpec) (hs : s ∈ d.named)
    (a : List Char) (ha : s.aliasName = some a) :
    s.name ∉ unusedImportsOf u ∧ a ∉ unusedImportsOf u
    ∧ s ∈ (removeUnusedImportsDecl (unusedImportsOf u) d).1.named := by
  have h1 := aliased_not_unused u hwf d hd s hs a ha
  refine ⟨h1, alias_not_unused u hwf d hd s hs a ha, ?_⟩
  rw [removeDecl_named, List.mem_filter]
  exact ⟨hs, by simpa using h1⟩

/-- C10 (witness): the aliased import `format as fmt` is neither reported
nor removed even though `format` occurs only once. -/
theorem c10_witness :
    (str "format") ∉ unusedImportsOf exC10unit
    ∧ (str "fmt") ∉ unusedImportsOf exC10unit
    ∧ (⟨str "format", some (str "fmt")⟩ : NamedSpec) ∈
        (removeUnusedImportsDecl (unusedImportsOf exC10unit) exC10decl).1.named :=
  c10_aliased_import_skipped exC10unit (by decide) exC10decl (by decide)
    ⟨str "format", some (str "fmt")⟩ (by decide) (str "fmt") (by decide)

/-- C6 (counterexample): with deep scrub, the unused function a calls b;
the first apply run removes a, after which b has become unused, so the
second apply run modifies the file again — the second run's modified-file
list is nonempty. -/
theorem c6_counterexample :
    (cleanModel exC6opts (cleanModel exC6opts exC6proj).1).2.modifiedFiles
      = [str "/p/x.ts"]
    ∧ (cleanModel exC6opts (cleanModel exC6opts exC6proj).1).2.modifiedFiles ≠ [] := by
  decide

/-- C6 (witness): a second import-only apply run on a one-file project
with an unused import modifies and deletes nothing. -/
theorem c6_witness :
    (cleanModel exC6wopts (cleanModel exC6wopts exC6wproj).1).2.modifiedFiles = []
    ∧ (cleanModel exC6wopts (cleanModel exC6wopts exC6wproj).1).2.deletedFiles = [] :=
  second_apply_noop exC6wopts exC6wproj rfl rfl rfl (by decide) (by decide)

theorem mem_deleteUnusedFilesModel (opts : CleanerOptions) (td : List Char)
    (l : List (List Char)) (q : List Char)
    (hq : q ∈ deleteUnusedFilesModel opts td l) :
    isFileProtected td q = false := by
  unfold deleteUnusedFilesModel at hq
  split at hq
  · simp at hq
  · rw [List.mem_filter] at hq
    simpa using hq.2

theorem mem_ite_delete (opts : CleanerOptions) (td : List Char)
    (l : List (List Char)) (c : Prop) [Decidable c] (q : List Char)
    (hq : q ∈ (if c then deleteUnusedFilesModel opts td l else [])) :
    isFileProtected td q = false := by
  by_cases h : c
  · rw [if_pos h] at hq
    exact mem_deleteUnusedFilesModel _ _ _ _ hq
  · rw [if_neg h] at hq
    simp at hq

theorem mem_map_fst_step (opts : CleanerOptions) (ui uv uf : List FileNames)
    (files : List SourceUnit) (u : SourceUnit) (hu : u ∈ files) :
    (cleanStepUnit opts ui uv uf u).1
      ∈ (files.map (cleanStepUnit opts ui uv uf)).map Prod.fst :=
  List.mem_map.mpr ⟨cleanStepUnit opts ui uv uf u, List.mem_map.mpr ⟨u, hu, rfl⟩, rfl⟩

theorem cleanModel_deleted_unprotected (opts : CleanerOptions) (proj : Project)
    (q : List Char) (hq : q ∈ (cleanModel opts proj).2.deletedFiles) :
    isFileProtected proj.targetDir q = false := by
  simp only [cleanModel] at hq
  split at hq
  · exact mem_ite_delete _ _ _ _ _ hq
  · simp at hq

theorem cleanModel_keeps_path (opts : CleanerOptions) (proj : Project)
    (p : List Char) (hprot : isFileProtected proj.targetDir p = true)
    (hpmem : p ∈ proj.files.map (fun u => u.path)) :
    p ∈ (cleanModel opts proj).1.files.map (fun u => u.path) := by
  simp only [cleanModel]
  split
  · obtain ⟨u, hu, hup⟩ := List.mem_map.mp hpmem
    apply List.mem_map.mpr
    refine ⟨_, List.mem_filter.mpr ⟨mem_map_fst_step opts _ _ _ proj.files u hu, ?_⟩,
      ?_⟩
    · rw [cleanStep_path, hup]
      simp only [Bool.not_eq_true', List.any_eq_false, decide_eq_false_iff_not,
        decide_eq_true_eq]
      intro q hq hqp
      have hqf := mem_ite_delete _ _ _ _ _ hq
      rw [hqp, hprot] at hqf
      exact absurd hqf (by decide)
    · rw [cleanStep_path]
      exact hup
  · exact hpmem

/-- C1: a path satisfying the file-protection predicate never appears in
the deleted-file list of a clean run — the predicate is re-evaluated as
the final filter of the deletion stage — and such a file survives in the
project state, for every option combination, including deleteUnusedFiles
and removeUnused both set. -/
theorem c1_protected_never_deleted (opts : CleanerOptions) (proj : Project)
    (p : List Char) (hp : isFileProtected proj.targetDir p = true) :
    p ∉ (cleanModel opts proj).2.deletedFiles
    ∧ (p ∈ proj.files.map (fun u => u.path) →
        p ∈ (cleanModel opts proj).1.files.map (fun u => u.path)) := by
  constructor
  · intro hmem
    have h := cleanModel_deleted_unprotected opts proj p hmem
    rw [hp] at h
    exact absurd h (by decide)
  · exact cleanModel_keeps_path opts proj p hp

/-- C1 (witness): the test-directory file of the concrete project is
protected, never deleted, and survives an apply run with deleteUnusedFiles
and removeUnused both set. -/
theorem c1_witness :
    isFileProtected exC1proj.targetDir (str "/p/tests/helper.ts") = true
    ∧ (str "/p/tests/helper.ts") ∉ (cleanModel exC1opts exC1proj).2.deletedFiles
    ∧ (str "/p/tests/helper.ts")
        ∈ (cleanModel exC1opts exC1proj).1.files.map (fun u => u.path) := by
  refine ⟨by decide, ?_, ?_⟩
  · exact (c1_protected_never_deleted exC1opts exC1proj _ (by decide)).1
  · exact (c1_protected_never_deleted exC1opts exC1proj _ (by decide)).2 (by decide)

/-- C2: with dryRun set, clean mutates nothing for every project state —
the project (files and disk) is returned unchanged and the modified-file
and deleted-file lists are empty — and the style cleaner likewise leaves
every stylesheet unchanged with an empty modified list. -/
theorem c2_dry_run_no_mutation (opts : CleanerOptions) (proj : Project)
    (sopts : StyleCleanerOptions) (senv : StyleEnv)
    (hdry : opts.dryRun = true) (hsdry : sopts.dryRun = true) :
    (cleanModel opts proj).1 = proj
    ∧ (cleanModel opts proj).2.modifiedFiles = []
    ∧ (cleanModel opts proj).2.deletedFiles = []
    ∧ (styleCleanModel sopts senv).1 = senv
    ∧ (styleCleanModel sopts senv).2.modifiedFiles = [] := by
  have hcond : (!opts.dryRun && opts.removeUnused) = false := by
    rw [hdry]
    rfl
  have hclean : cleanModel opts proj
      = (proj, ⟨if opts.deepScrub then findUnusedFilesModel proj else [],
          findUnusedImportsModel proj.files,
          if opts.deepScrub then findUnusedVariablesModel proj.files else [],
          if opts.deepScrub then findUnusedFunctionsModel proj.files else [],
          [], [],
          if opts.deepScrub then
            calcUnusedFilesSize proj
              (if opts.deepScrub then findUnusedFilesModel proj else [])
          else 0⟩) := by
    unfold cleanModel
    rw [hcond]
    simp
  have hscond : ∀ b c : Bool, (!sopts.dryRun && b && c) = false := by
    intro b c
    rw [hsdry]
    rfl
  refine ⟨by rw [hclean], by rw [hclean], by rw [hclean], ?_, ?_⟩
  · simp only [styleCleanModel]
    split
    · rfl
    · rw [hscond]
      simp
  · simp only [styleCleanModel]
    split
    · rfl
    · rw [hscond]
      simp

/-- C2 (witness): a dry run on a concrete project with an unused import,
an unused file and an unused selector changes neither the project nor the
stylesheet environment and records no modification or deletion. -/
theorem c2_witness :
    (cleanModel exC2opts exC2proj).1 = exC2proj
    ∧ (cleanModel exC2opts exC2proj).2.modifiedFiles = []
    ∧ (cleanModel exC2opts exC2proj).2.deletedFiles = []
    ∧ (styleCleanModel exC2sopts exC2senv).1 = exC2senv
    ∧ (styleCleanModel exC2sopts exC2senv).2.modifiedFiles = [] :=
  c2_dry_run_no_mutation exC2opts exC2proj exC2sopts exC2senv rfl rfl

theorem cleanModel_unusedFiles (opts : CleanerOptions) (proj : Project) :
    (cleanModel opts proj).2.unusedFiles
      = (if opts.deepScrub then findUnusedFilesModel proj else []) := by
  simp only [cleanModel]
  split <;> rfl

/-- C7: a path of the entry-point allow-set, resolved from the manifest's
main field or bin entries, never appears in the unused-files list — even
with zero resolved inbound import edges — and hence never in the
unusedFiles field of any clean run. -/
theorem c7_entry_point_never_unused (proj : Project) (p : List Char)
    (hp : p ∈ entryPointsOf proj) :
    p ∉ findUnusedFilesModel proj
    ∧ ∀ opts, p ∉ (cleanModel opts proj).2.unusedFiles := by
  have h1 : p ∉ findUnusedFilesModel proj := by
    intro hmem
    unfold findUnusedFilesModel at hmem
    rw [List.mem_filter] at hmem
    have h2 := hmem.2
    simp only [Bool.and_eq_true, Bool.not_eq_true', List.any_eq_false,
      decide_eq_false_iff_not, decide_eq_true_eq] at h2
    exact h2.1.1.2 p hp rfl
  refine ⟨h1, ?_⟩
  intro opts hmem
  rw [cleanModel_unusedFiles] at hmem
  split at hmem
  · exact h1 hmem
  · simp at hmem

/-- C7 (witness): the manifest main entry dist/index.js resolves into the
allow-set and, despite having zero inbound import edges, is not reported
as an unused file. -/
theorem c7_witness :
    (str "/t/dist/index.js") ∈ entryPointsOf exC7proj
    ∧ (str "/t/dist/index.js") ∉ findUnusedFilesModel exC7proj
    ∧ (str "/t/dist/index.js") ∉ (cleanModel exC7opts exC7proj).2.unusedFiles := by
  refine ⟨by decide, ?_, ?_⟩
  · exact (c7_entry_point_never_unused exC7proj _ (by decide)).1
  · exact (c7_entry_point_never_unused exC7proj _ (by decide)).2 exC7opts

theorem filter_len_eq_iff {α : Type} (p : α → Bool) (l : List α) :
    (l.filter p).length = l.length ↔ ∀ a ∈ l, p a = true := by
  induction l with
  | nil => simp
  | cons x xs ih =>
    by_cases hx : p x = true
    · simp [hx, ih]
    · rw [List.filter_cons, if_neg hx]
      simp only [List.length_cons]
      constructor
      · intro h
        have hle := List.length_filter_le p xs
        exact absurd h (by omega)
      · intro h
        exact absurd (h x (List.mem_cons_self x xs)) hx

theorem selHasUnusedClass_iff (names : List (List Char)) (s : CssSel) :
    selHasUnusedClass names s = true
      ↔ ∃ c ∈ s.classes, ('.' :: c) ∈ names := by
  unfold selHasUnusedClass
  simp only [List.any_eq_true, decide_eq_true_eq]
  constructor
  · rintro ⟨c, hc, un, hun, hequ⟩
    exact ⟨c, hc, hequ ▸ hun⟩
  · rintro ⟨c, hc, hmem⟩
    exact ⟨c, hc, '.' :: c, hmem, rfl⟩

theorem ruleRemoved_eq_all (names : List (List Char)) (r : CssRule) :
    ruleRemoved names r = r.sels.all (selHasUnusedClass names) := by
  unfold ruleRemoved
  cases h : r.sels.all (selHasUnusedClass names) with
  | true =>
    rw [decide_eq_true_eq]
    exact (filter_len_eq_iff _ _).mpr (List.all_eq_true.mp h)
  | false =>
    rw [decide_eq_false_iff_not]
    intro hlen
    have hall := List.all_eq_true.mpr ((filter_len_eq_iff _ _).mp hlen)
    rw [h] at hall
    exact absurd hall (by decide)

/-- C8 (amended): during style cleanup with apply, a CSS rule is dropped
exactly when EVERY selector in its selector list CONTAINS an unused class
selector (a compound selector mixing a used and an unused class is
dropped); the kept rules are exactly those with some selector free of
unused classes, and the stylesheet is persisted (its path recorded as
modified) only when the regenerated text differs from the original. -/
theorem c8_amended_rule_drop (opts : StyleCleanerOptions) (f : StyleFile)
    (names : List (List Char)) (hdry : opts.dryRun = false)
    (hrm : opts.removeUnused = true) :
    cleanedRules names f
        = f.rules.filter (fun r => !(r.sels.all (selHasUnusedClass names)))
    ∧ (∀ r ∈ f.rules,
        r.sels.all (selHasUnusedClass names) = false → r ∈ cleanedRules names f)
    ∧ removeUnusedSelectorsModel opts [f] [⟨f.path, names⟩]
        = (if cssRender (cleanedRules names f) = f.text then
            ([f], [],
             (f.text.length : Int) - ((cssRender (cleanedRules names f)).length : Int))
          else
            ([cleanedFile names f], [f.path],
             (f.text.length : Int) - ((cssRender (cleanedRules names f)).length : Int))) := by
  have heq : cleanedRules names f
      = f.rules.filter (fun r => !(r.sels.all (selHasUnusedClass names))) := by
    unfold cleanedRules
    exact List.filter_congr (fun r _ => by rw [ruleRemoved_eq_all])
  refine ⟨heq, ?_, ?_⟩
  · intro r hr hall
    rw [heq, List.mem_filter]
    exact ⟨hr, by rw [hall]; rfl⟩
  · unfold removeUnusedSelectorsModel
    rw [hdry, hrm]
    simp only [Bool.not_true, Bool.or_false, Bool.false_eq_true, if_false,
      List.foldl_cons, List.foldl_nil]
    have hfind : ([f].find? (fun g => decide (g.path = f.path))) = some f :=
      List.find?_cons_of_pos _ (by simp)
    rw [hfind]
    show (if cssRender (cleanedRules names f) = f.text then _ else _) = _
    by_cases hc : cssRender (cleanedRules names f) = f.text
    · rw [if_pos hc, if_pos hc]
      show ([f], [], 0 + ((f.text.length : Int) - _)) = _
      rw [zero_add]
      rfl
    · rw [if_neg hc, if_neg hc]
      show ([if f.path = f.path then _ else f], [] ++ [f.path],
        0 + ((f.text.length : Int) - _)) = _
      rw [if_pos rfl, zero_add, List.nil_append]
      rfl

/-- C8 (counterexample): a rule whose single compound selector mixes the
used class .a with the unused class .b is dropped by apply even though it
contains a used selector — the spec's "selector list consists entirely of
unused class selectors" reading does not hold. -/
theorem c8_counterexample :
    (str ".a") ∉ (unusedSelectorsOf exC8opts exC8env).flatMap (fun e => e.names)
    ∧ (unusedSelectorsOf exC8opts exC8env)
        = [⟨str "/p/styles.css", [str ".b"]⟩]
    ∧ (styleCleanModel exC8opts exC8env).1.styleFiles.map (fun f => f.rules)
        = [[]] := by
  decide

/-- C8 (witness): in the scenario stylesheet defining .header, .footer and
.unused-class, with only header and footer referenced, the unused-class
rule is removed, both used rules are kept, and the file is recorded as
modified. -/
theorem c8_witness :
    ruleRemoved [str ".unused-class"]
        (⟨[⟨[str "unused-class"]⟩], str "z"⟩ : CssRule) = true
    ∧ (⟨[⟨[str "header"]⟩], str "x"⟩ : CssRule)
        ∈ cleanedRules [str ".unused-class"] exC8Bfile
    ∧ (⟨[⟨[str "footer"]⟩], str "y"⟩ : CssRule)
        ∈ cleanedRules [str ".unused-class"] exC8Bfile
    ∧ (removeUnusedSelectorsModel ⟨false, true, true⟩ [exC8Bfile]
        [⟨str "/q/styles.css", [str ".unused-class"]⟩]).2.1
        = [str "/q/styles.css"] := by
  have h := c8_amended_rule_drop ⟨false, true, true⟩ exC8Bfile
    [str ".unused-class"] rfl rfl
  refine ⟨by decide, ?_, ?_, ?_⟩
  · exact h.2.1 _ (by decide) (by decide)
  · exact h.2.1 _ (by decide) (by decide)
  · rw [show (⟨str "/q/styles.css", [str ".unused-class"]⟩ : FileNames)
        = ⟨exC8Bfile.path, [str ".unused-class"]⟩ from rfl, h.2.2]
    rw [if_neg (by decide)]
    rfl

/-- C9: when no package.json exists in the target directory, the audit
body throws the manifest-missing error, the catch wrapper converts it to
the empty audit result (all lists empty, counts zero) without rethrowing,
and the cleaner stage of the combined run is unaffected. -/
theorem c9_manifest_missing (opts : DependencyAuditorOptions) (env : AuditEnv)
    (hmiss : env.packageJson = none) :
    auditInner opts env
        = Except.error (str "No package.json found in target directory")
    ∧ audit opts env = emptyAuditResult
    ∧ ∀ copts proj,
        (runCleanupAndAudit copts proj opts env).1 = cleanModel copts proj := by
  have hinner : auditInner opts env
      = Except.error (str "No package.json found in target directory") := by
    unfold auditInner
    rw [hmiss]
  refine ⟨hinner, ?_, fun copts proj => rfl⟩
  unfold audit
  rw [hinner]

/-- C9 (witness): on a concrete environment with no manifest but nonempty
depcheck output, audit returns the empty result and the cleaner stage of
the combined run equals a standalone clean run. -/
theorem c9_witness :
    audit exC9opts exC9env = emptyAuditResult
    ∧ (runCleanupAndAudit exC9copts exC9proj exC9opts exC9env).1
        = cleanModel exC9copts exC9proj := by
  have h := c9_manifest_missing exC9opts exC9env rfl
  exact ⟨h.2.1, h.2.2 exC9copts exC9proj⟩

end VJ
